import Mathlib

/-!
Verification of the godotenv parser core (`parser.go`, given as src/unnamed/part_000)
and the annotation validator (`src/spec.go`).

The embedding models a Go byte buffer as a `List Char`, each `Char` standing for one
byte (all inputs considered here are byte strings; Go's `unicode` classification is
applied by the source to single bytes cast to runes, so the Latin-1 rows of the
relevant Unicode tables are hard-coded below).  Go maps are modelled as association
lists updated in place (`updA`), with absent keys reading as the empty string, exactly
as a Go `map[string]string` read behaves.  The parser's main loop mutates its output
map and returns an error; we return the final state of both maps together with the
optional error.  Loops whose structure is not structurally recursive (the regex
replacement loop, the statement loop) take an explicit fuel argument; the fuel
supplied is the buffer length plus one, which strictly exceeds the number of
iterations since every iteration consumes at least one byte.
-/

namespace Godotenv

abbrev Str := List Char

/-- A single-quote character (used in examples, as `'` is awkward inside string literals). -/
def squote : Char := '\''

/-! ### Character classes (parser.go `isSpace`, `isLineEnd`, and Go `unicode` on bytes) -/

/-- parser.go `isSpace`: space characters excluding the newline
(`'\t', '\v', '\f', '\r', ' ', 0x85, 0xA0`). -/
def goIsSpace (c : Char) : Bool :=
  c.toNat == 9 || c.toNat == 11 || c.toNat == 12 || c.toNat == 13 ||
  c.toNat == 32 || c.toNat == 133 || c.toNat == 160

/-- Go `unicode.IsSpace` restricted to single bytes: the same set plus `'\n'`. -/
def unicodeIsSpace (c : Char) : Bool :=
  c.toNat == 10 || goIsSpace c

/-- parser.go `isLineEnd`: `'\n'` or `'\r'`. -/
def isLineEnd (c : Char) : Bool :=
  c.toNat == 10 || c.toNat == 13

/-- Go `unicode.IsLetter` restricted to single bytes (ASCII letters plus the
Latin-1 letters `ª µ º À–Ö Ø–ö ø–ÿ`). -/
def goIsLetter (c : Char) : Bool :=
  (65 ≤ c.toNat && c.toNat ≤ 90) || (97 ≤ c.toNat && c.toNat ≤ 122) ||
  c.toNat == 0xAA || c.toNat == 0xB5 || c.toNat == 0xBA ||
  (0xC0 ≤ c.toNat && c.toNat ≤ 0xD6) || (0xD8 ≤ c.toNat && c.toNat ≤ 0xF6) ||
  (0xF8 ≤ c.toNat && c.toNat ≤ 0xFF)

/-- Go `unicode.IsNumber` restricted to single bytes (ASCII digits plus the
Latin-1 numeric characters `² ³ ¹ ¼ ½ ¾`). -/
def goIsNumber (c : Char) : Bool :=
  (48 ≤ c.toNat && c.toNat ≤ 57) ||
  c.toNat == 0xB2 || c.toNat == 0xB3 || c.toNat == 0xB9 ||
  c.toNat == 0xBC || c.toNat == 0xBD || c.toNat == 0xBE

/-- The characters `locateKeyName` accepts inside a key besides whitespace:
`'_'`, letters, numbers, `'.'`. -/
def validKeyCharB (c : Char) : Bool :=
  c == '_' || goIsLetter c || goIsNumber c || c == '.'

/-- The variable-name class `[A-Z0-9_]` of `expandVarRegex`. -/
def isUpperVarChar (c : Char) : Bool :=
  (65 ≤ c.toNat && c.toNat ≤ 90) || (48 ≤ c.toNat && c.toNat ≤ 57) || c.toNat == 95

/-! ### Trimming helpers (Go `bytes`/`strings` Trim functions) -/

/-- `bytes.TrimLeftFunc` / `strings.TrimLeftFunc`. -/
def trimLeftB (p : Char → Bool) (s : Str) : Str := s.dropWhile p

/-- `bytes.TrimRightFunc` / `strings.TrimRightFunc`. -/
def trimRightB (p : Char → Bool) (s : Str) : Str := (s.reverse.dropWhile p).reverse

/-- `strings.TrimFunc` (both ends). -/
def trimB (p : Char → Bool) (s : Str) : Str := trimLeftB p (trimRightB p s)

/-- `strings.TrimFunc(s, isSpace)` with parser.go's `isSpace`. -/
def trimGoB (s : Str) : Str := trimB goIsSpace s

/-- `strings.TrimSpace` (Unicode white space, restricted to bytes). -/
def trimSpaceU (s : Str) : Str := trimB unicodeIsSpace s

/-! ### UTF-8 decoding for the key's right trim

Go's `strings.TrimRightFunc(key, unicode.IsSpace)` decodes the string as UTF-8
from the right: a trailing ASCII space byte is a one-byte space rune and is
trimmed, the two-byte sequences `C2 85`/`C2 A0` decode to U+0085/U+00A0 and are
trimmed, but a bare trailing `85` or `A0` byte decodes to `RuneError` (width 1),
which is not a space, and survives.  The byte-per-byte trim used elsewhere in
the parser (`isSpace` runs over single bytes) must therefore not be reused
here. -/

/-- Go `utf8.RuneStart`: every byte that is not of the continuation form
`10xxxxxx`. -/
def runeStart (b : Char) : Bool := !(0x80 ≤ b.toNat && b.toNat ≤ 0xBF)

/-- Go `utf8.DecodeRune`: the first rune of the byte sequence and its width.
An empty input gives `(RuneError, 0)`; an invalid, overlong, surrogate or short
encoding gives `(RuneError, 1)`, per the strict accept ranges of Go's decoder
(second byte `A0–BF` after `E0`, `80–9F` after `ED`, `90–BF` after `F0`,
`80–8F` after `F4`, otherwise `80–BF`; leads `80–C1` and `F5–FF` invalid). -/
def utf8DecodeRune : Str → Nat × Nat
  | [] => (0xFFFD, 0)
  | b0 :: rest =>
    if b0.toNat < 0x80 then (b0.toNat, 1)
    else if b0.toNat < 0xC2 then (0xFFFD, 1)
    else if b0.toNat ≤ 0xDF then
      match rest with
      | b1 :: _ =>
        if 0x80 ≤ b1.toNat && b1.toNat ≤ 0xBF then
          ((b0.toNat - 0xC0) * 0x40 + (b1.toNat - 0x80), 2)
        else (0xFFFD, 1)
      | [] => (0xFFFD, 1)
    else if b0.toNat ≤ 0xEF then
      match rest with
      | b1 :: b2 :: _ =>
        if ((if b0.toNat == 0xE0 then 0xA0 else 0x80) ≤ b1.toNat &&
              b1.toNat ≤ (if b0.toNat == 0xED then 0x9F else 0xBF)) &&
            (0x80 ≤ b2.toNat && b2.toNat ≤ 0xBF) then
          ((b0.toNat - 0xE0) * 0x1000 + (b1.toNat - 0x80) * 0x40 + (b2.toNat - 0x80), 3)
        else (0xFFFD, 1)
      | _ => (0xFFFD, 1)
    else if b0.toNat ≤ 0xF4 then
      match rest with
      | b1 :: b2 :: b3 :: _ =>
        if ((if b0.toNat == 0xF0 then 0x90 else 0x80) ≤ b1.toNat &&
              b1.toNat ≤ (if b0.toNat == 0xF4 then 0x8F else 0xBF)) &&
            ((0x80 ≤ b2.toNat && b2.toNat ≤ 0xBF) &&
              (0x80 ≤ b3.toNat && b3.toNat ≤ 0xBF)) then
          ((b0.toNat - 0xF0) * 0x40000 + (b1.toNat - 0x80) * 0x1000 +
            (b2.toNat - 0x80) * 0x40 + (b3.toNat - 0x80), 4)
        else (0xFFFD, 1)
      | _ => (0xFFFD, 1)
    else (0xFFFD, 1)

/-- The coverage test at the end of Go's `utf8.DecodeLastRune`: the rune decoded
forward from the candidate start byte must span exactly to the end of the
string, otherwise the last byte is an error rune of width 1. -/
def lastRuneCheck (p : Nat × Nat) (need : Nat) : Nat × Nat :=
  if p.2 == need then p else (0xFFFD, 1)

/-- Third lookback step of `utf8.DecodeLastRune` (`b` is the last byte): a start
byte three positions back may cover the end with a four-byte rune; with no start
byte inside the `UTFMax` window, no decode from at or before the window's edge
can span to the end, so the result is `(RuneError, 1)` exactly as in Go. -/
def lastLook3 (b b1 b2 : Char) (rs2 : Str) : Nat × Nat :=
  match rs2 with
  | [] => (0xFFFD, 1)
  | b3 :: _ =>
    if runeStart b3 then lastRuneCheck (utf8DecodeRune [b3, b2, b1, b]) 4
    else (0xFFFD, 1)

/-- Second lookback step: a start byte two positions back may cover the end with
a three-byte rune. -/
def lastLook2 (b b1 : Char) (rs1 : Str) : Nat × Nat :=
  match rs1 with
  | [] => (0xFFFD, 1)
  | b2 :: rs2 =>
    if runeStart b2 then lastRuneCheck (utf8DecodeRune [b2, b1, b]) 3
    else lastLook3 b b1 b2 rs2

/-- First lookback step: a start byte one position back may cover the end with a
two-byte rune. -/
def lastLook1 (b : Char) (rs : Str) : Nat × Nat :=
  match rs with
  | [] => (0xFFFD, 1)
  | b1 :: rs1 =>
    if runeStart b1 then lastRuneCheck (utf8DecodeRune [b1, b]) 2
    else lastLook2 b b1 rs1

/-- Go `utf8.DecodeLastRune` on the reversed byte sequence (head = last byte):
an ASCII last byte is its own rune; otherwise scan back at most `UTFMax = 4`
bytes for a rune-start byte and check coverage. -/
def utf8DecodeLastAux : Str → Nat × Nat
  | [] => (0xFFFD, 0)
  | b :: rs => if b.toNat < 0x80 then (b.toNat, 1) else lastLook1 b rs

/-- Go `utf8.DecodeLastRune`. -/
def utf8DecodeLastRune (s : Str) : Nat × Nat := utf8DecodeLastAux s.reverse

/-- Go `unicode.IsSpace` on a decoded rune (the full code-point set, not the
single-byte restriction): ASCII white space, NEL, NBSP, and the White_Space
code points above U+00FF. -/
def uniIsSpaceRune (r : Nat) : Bool :=
  r == 9 || r == 10 || r == 11 || r == 12 || r == 13 || r == 32 ||
  r == 0x85 || r == 0xA0 || r == 0x1680 || (0x2000 ≤ r && r ≤ 0x200A) ||
  r == 0x2028 || r == 0x2029 || r == 0x202F || r == 0x205F || r == 0x3000

/-- Go `strings.TrimRightFunc(s, unicode.IsSpace)`: repeatedly decode the last
rune and drop its bytes while it is white space.  A dropped rune is at least one
byte, so `length + 1` fuel suffices and the fuel-0 branch is unreachable.  Go's
final step re-decodes the first kept rune forward and keeps exactly its width;
that equals this truncation: a kept valid rune's width is fixed by its lead
byte, and after a kept `RuneError` byte the forward decode cannot reach into the
dropped runes, because every dropped space rune starts with an ASCII byte or a
lead byte (`C2`, `E1`, `E2`, `E3`), never with a continuation byte that could
extend a sequence begun before it. -/
def trimRightUniGo : Nat → Str → Str
  | 0, s => s
  | f + 1, s =>
    if s.isEmpty then s
    else if uniIsSpaceRune (utf8DecodeLastRune s).1 then
      trimRightUniGo f (s.take (s.length - (utf8DecodeLastRune s).2))
    else s

/-- Go `strings.TrimRightFunc(s, unicode.IsSpace)` with the fuel filled in. -/
def trimRightUni (s : Str) : Str := trimRightUniGo (s.length + 1) s

/-- The ASCII bytes of `unicode.IsSpace`: exactly the white-space runes that are
single bytes in UTF-8, hence exactly the bytes the right trim always removes
from a key's end (a bare `85`/`A0` byte instead decodes to `RuneError` and
survives). -/
def asciiSpaceB (c : Char) : Bool :=
  c.toNat == 9 || c.toNat == 10 || c.toNat == 11 || c.toNat == 12 ||
  c.toNat == 13 || c.toNat == 32

/-! ### Go maps as association lists -/

abbrev EnvMap := List (Str × Str)

/-- Go map assignment `m[k] = v`: replace in place, or append a new binding. -/
def updA {α : Type} (m : List (Str × α)) (k : Str) (v : α) : List (Str × α) :=
  match m with
  | [] => [(k, v)]
  | (k', v') :: t => if k' = k then (k, v) :: t else (k', v') :: updA t k v

/-- Go map lookup returning an option. -/
def lookupA {α : Type} (m : List (Str × α)) (k : Str) : Option α :=
  match m with
  | [] => none
  | (k', v') :: t => if k' = k then some v' else lookupA t k

/-- Go map read `m[k]` for `map[string]string`: the empty string when absent. -/
def lookupD (m : EnvMap) (k : Str) : Str := (lookupA m k).getD []

/-! ### Errors (parser.go returns `error`; two kinds arise, plus the zero-length guard) -/

inductive ParseErr where
  /-- `unexpected character %q in variable name near %q` -/
  | invalidKey (c : Char) (near : Str)
  /-- `zero length string` -/
  | zeroLength
  /-- `unterminated quoted value %s` -/
  | unterminatedQuote (frag : Str)
deriving DecidableEq

/-! ### CRLF normalization (`bytes.Replace(src, "\r\n", "\n", -1)`) -/

def normalizeCRLF : Str → Str
  | '\r' :: '\n' :: t => '\n' :: normalizeCRLF t
  | c :: t => c :: normalizeCRLF t
  | [] => []

/-! ### `getStatementStart`

The source recursively skips runs of `unicode.IsSpace` characters and whole
comment lines (first non-space byte `'#'`, up to the next `'\n'`).  We express the
same scan as a single forward pass with a flag saying whether we are inside a
comment line; the source's recursion re-enters the space-skipping state exactly at
the terminating `'\n'`, which the flagged scan mirrors. -/

def stmtStart : Bool → Str → Option Str
  | _, [] => none
  | false, c :: t =>
    if unicodeIsSpace c then stmtStart false t
    else if c ≠ '#' then some (c :: t)
    else stmtStart true t
  | true, c :: t => if c = '\n' then stmtStart false t else stmtStart true t

def getStatementStart (src : Str) : Option Str := stmtStart false src

/-! ### `locateKeyName` -/

/-- Result of the key-scanning loop in `locateKeyName`: the loop either breaks at a
`'='`/`':'` delimiter (the source records the byte offset; we return the scanned
prefix and the suffix after the delimiter directly), runs off the end of the buffer,
or stops at an invalid character. -/
inductive KeyScan where
  | found (key rest : Str)
  | noDelim
  | bad (c : Char)
deriving DecidableEq

/-- Prepend the current character to the key prefix of a `found` result. -/
def scanKeyCons (c : Char) : KeyScan → KeyScan
  | .found key rest => .found (c :: key) rest
  | r => r

/-- The `for i, char := range src` loop of `locateKeyName`: whitespace is skipped in
place, `'='`/`':'` ends the key, `'_'`, letters, numbers and `'.'` continue, anything
else is the invalid-key error. -/
def scanKey : Str → KeyScan
  | [] => .noDelim
  | c :: t =>
    if goIsSpace c then scanKeyCons c (scanKey t)
    else if c = '=' ∨ c = ':' then .found [] t
    else if c = '_' then scanKeyCons c (scanKey t)
    else if goIsLetter c || goIsNumber c || c = '.' then scanKeyCons c (scanKey t)
    else .bad c

/-- The `export`-stripping step of `locateKeyName`: when the slice starts with the
token `export` followed by white space, drop the token (6 bytes) and the white
space. -/
def exportAdjust (src1 : Str) : Str :=
  if "export".data.isPrefixOf src1 then
    match src1.drop 6 with
    | c :: t2 => if goIsSpace c then trimLeftB goIsSpace (c :: t2) else src1
    | [] => src1
  else src1

/-- The part of `locateKeyName` after the initial trimming: run the key loop,
then apply the zero-length guard and the final trims. -/
def locateKeyNameAt (src : Str) : Except ParseErr (Str × Str) :=
  match scanKey src with
  | .bad c => .error (.invalidKey c src)
  | .noDelim =>
    -- the loop found no delimiter: key stays empty; the zero-length guard fires
    -- only when the scanned slice itself is empty
    if src.length = 0 then .error .zeroLength
    else .ok ([], trimLeftB goIsSpace src)
  | .found key rest =>
    .ok (trimRightUni key, trimLeftB goIsSpace rest)

def locateKeyName (src0 : Str) : Except ParseErr (Str × Str) :=
  locateKeyNameAt (exportAdjust (trimLeftB goIsSpace src0))

/-! ### Line/comment position helpers -/

/-- `findEndOfLine`: index of the first line-end character, or the length.
(The source's `bytes.IndexFunc` returns `-1` when absent immediately mapped to `len`.) -/
def findEndOfLine : Str → Nat
  | [] => 0
  | c :: t => if isLineEnd c then 0 else findEndOfLine t + 1

/-- The backward loop of `findEndOfVar` checking indices `i+1, i, …, 1`:
a `'#'` whose predecessor is white space marks the inline comment. -/
def findEndOfVarAux (line : Str) : Nat → Nat
  | 0 => line.length
  | i + 1 =>
    if line.getD (i + 1) '\x00' = '#' ∧ goIsSpace (line.getD i '\x00') then i + 1
    else findEndOfVarAux line i

/-- `findEndOfVar`: scan the line from its end for a whitespace-preceded `'#'`
(index `0` never qualifies since the loop requires `i > 0`). -/
def findEndOfVar (line : Str) : Nat := findEndOfVarAux line (line.length - 1)

/-! ### Escape decoding (`expandEscapes` and its two regexes) -/

/-- First pass, `escapeRegex = \\.` with `\n`/`\r` mapped to the control characters
and any other match kept verbatim.  `.` does not match a newline in Go, so a
backslash directly before `'\n'` is not a match and both bytes pass through. -/
def escPass1 : Str → Str
  | '\\' :: '\n' :: rest => '\\' :: '\n' :: escPass1 rest
  | '\\' :: c :: rest =>
    if c = 'n' then '\n' :: escPass1 rest
    else if c = 'r' then '\r' :: escPass1 rest
    else '\\' :: c :: escPass1 rest
  | c :: rest => c :: escPass1 rest
  | [] => []

/-- Second pass, `unescapeCharsRegex = \\([^$])` replaced by the captured character:
a backslash before anything but `'$'` is stripped.  (`[^$]` does match a newline.) -/
def escPass2 : Str → Str
  | '\\' :: '$' :: rest => '\\' :: '$' :: escPass2 rest
  | '\\' :: c :: rest => c :: escPass2 rest
  | c :: rest => c :: escPass2 rest
  | [] => []

def expandEscapes (s : Str) : Str := escPass2 (escPass1 s)

/-! ### Variable substitution (`expandVariables` / `expandVarRegex`)

`expandVarRegex = (\\)?(\$)(\()?\{?([A-Z0-9_]+)?\}?`.  Every match contains exactly
one `'$'`, optionally preceded by the backslash of group 1; after the `'$'` the
greedy optionals consume `'('` (group 3), `'{'`, a maximal `[A-Z0-9_]+` run
(group 4), and `'}'`, in that order.  `ReplaceAllStringFunc` rewrites the
non-overlapping matches left to right:
* group 1 present (`submatch[1] == "\\"`): the match minus its first byte;
* note `submatch[2]` is the `(\$)` group and is always `"$"`, so the source's
  comparison `submatch[2] == "("` never holds;
* group 4 nonempty: the map value `m[submatch[4]]` (empty when absent);
* otherwise the match is kept unchanged. -/

/-- Parse the greedy optional part of a match after the `'$'`: returns the matched
text after the dollar, the captured name (group 4), and the remaining input. -/
def varMatch (rest : Str) : Str × Str × Str :=
  let pr : Str × Str :=
    if rest.head? = some '(' then (['('], rest.tail) else ([], rest)
  let br : Str × Str :=
    if pr.2.head? = some '\x7b' then (['\x7b'], pr.2.tail) else ([], pr.2)
  let name := br.2.takeWhile isUpperVarChar
  let r3 := br.2.dropWhile isUpperVarChar
  let cr : Str × Str :=
    if r3.head? = some '\x7d' then (['\x7d'], r3.tail) else ([], r3)
  (pr.1 ++ br.1 ++ name ++ cr.1, name, cr.2)

/-- The replacement loop.  Each step consumes at least one character, so fuel equal
to the input length suffices; fuel `0` is never reached and returns the input. -/
def expandVarsGo (m : EnvMap) : Nat → Str → Str
  | 0, l => l
  | _ + 1, [] => []
  | fuel + 1, '\\' :: '$' :: rest =>
    -- a match with group 1: emit the match minus its leading backslash, no lookup
    let t := varMatch rest
    '$' :: (t.1 ++ expandVarsGo m fuel t.2.2)
  | fuel + 1, '$' :: rest =>
    let t := varMatch rest
    if t.2.1.isEmpty then
      -- group 4 empty: the match is returned unchanged
      '$' :: (t.1 ++ expandVarsGo m fuel t.2.2)
    else
      -- group 4 nonempty: substitute the map value (empty string when absent)
      lookupD m t.2.1 ++ expandVarsGo m fuel t.2.2
  | fuel + 1, c :: rest => c :: expandVarsGo m fuel rest

def expandVariables (v : Str) (m : EnvMap) : Str := expandVarsGo m v.length v

/-! ### Value extraction -/

/-- `hasQuotePrefix` (renamed): the opening single or double quote, when present. -/
def quoteAtStart (src : Str) : Option Char :=
  match src with
  | c :: _ => if c = '"' ∨ c = '\'' then some c else none
  | [] => none

/-- `extractUnquotedValue`.  (The source's `endOfLine == -1` branch is unreachable:
`findEndOfLine` already maps the not-found case to the length.)  The source converts
the line to a rune slice before `findEndOfVar`; on byte inputs as modelled here the
two index spaces agree. -/
def extractUnquotedValue (src : Str) (vars : EnvMap) : Str × Str × Str :=
  let endOfLine := findEndOfLine src
  let line := src.take endOfLine
  let endOfVar := findEndOfVar line
  let tc : Str × Str :=
    if line.length > 0 ∧ endOfVar = endOfLine ∧ line.take 1 = ['#'] then
      ([], trimSpaceU (line.drop 1))
    else
      (trimGoB (line.take endOfVar),
       if endOfVar + 1 < endOfLine then trimSpaceU ((src.take endOfLine).drop (endOfVar + 1))
       else [])
  (expandVariables tc.1 vars, tc.2, src.drop endOfLine)

/-- The scan of `extractQuotedValue` for the closing quote: an occurrence of the
quote character not immediately preceded by a backslash.  The source walks indices
`i ≥ 1` of `src`; we carry the previous character and return the content before the
closing quote and the rest after it. -/
def splitAtClosingQuote (q : Char) : Char → Str → Option (Str × Str)
  | _, [] => none
  | prev, c :: t =>
    if c = q ∧ prev ≠ '\\' then some ([], t)
    else
      match splitAtClosingQuote q c t with
      | some pr => some (c :: pr.1, pr.2)
      | none => none

/-- `extractQuotedValue`.  On a match at index `i` the value is `src[0:i]` with the
quote character trimmed from both ends, the inline comment is searched on the line
containing the opening quote, and double-quoted values are escape-decoded and then
variable-expanded; without a match the unterminated-value error carries the first
line.  (The `endOfLine == -1` branch is again unreachable.) -/
def extractQuotedValue (src : Str) (vars : EnvMap) (q : Char) :
    Except ParseErr (Str × Str × Str) :=
  match src with
  | c0 :: t0 =>
    match splitAtClosingQuote q c0 t0 with
    | some pr =>
      let value := trimLeftB (· == q) (trimRightB (· == q) (c0 :: pr.1))
      let endOfLine := findEndOfLine src
      let line := src.take endOfLine
      let endOfVar := findEndOfVar line
      let comment :=
        if endOfVar + 1 < endOfLine then trimSpaceU ((src.take endOfLine).drop (endOfVar + 1))
        else []
      let value := if q = '"' then expandVariables (expandEscapes value) vars else value
      .ok (value, comment, pr.2)
    | none => .error (.unterminatedQuote (src.take (findEndOfLine src)))
  | [] => .error (.unterminatedQuote [])

/-- `extractVarValue`: dispatch on the first byte. -/
def extractVarValue (src : Str) (vars : EnvMap) : Except ParseErr (Str × Str × Str) :=
  match quoteAtStart src with
  | none => .ok (extractUnquotedValue src vars)
  | some q => extractQuotedValue src vars q

/-! ### The statement loop (`parseBytesWithComments`)

The source mutates `out` (and `comments`) in place and returns an `error`; we return
the final state of both maps along with the optional error.  `parseBytes` passes a
nil comments map, which only disables the comment writes; we compute them and drop
them.  Every iteration that recurses consumes at least the key and its delimiter, so
fuel `length + 1` strictly exceeds the number of iterations; the fuel-zero branch is
unreachable. -/

def parseLoopGo : Nat → Str → EnvMap → EnvMap → EnvMap × EnvMap × Option ParseErr
  | 0, _, out, comments => (out, comments, none)
  | fuel + 1, cutset, out, comments =>
    match getStatementStart cutset with
    | none => (out, comments, none)
    | some cs =>
      match locateKeyName cs with
      | .error e => (out, comments, some e)
      | .ok kl =>
        if kl.1 = [] then (out, comments, none)
        else
          match extractVarValue kl.2 out with
          | .error e => (out, comments, some e)
          | .ok vcr =>
            parseLoopGo fuel vcr.2.2 (updA out kl.1 vcr.1)
              (if vcr.2.1.length > 0 then updA comments kl.1 vcr.2.1 else comments)

def parseBytesWithComments (src : Str) (out comments : EnvMap) :
    EnvMap × EnvMap × Option ParseErr :=
  let s := normalizeCRLF src
  parseLoopGo (s.length + 1) s out comments

def parseBytes (src : Str) (out : EnvMap) : EnvMap × Option ParseErr :=
  let r := parseBytesWithComments src out []
  (r.1, r.2.2)

/-! ### spec.go: the annotation validator -/

/-- The spec's key charset `[A-Za-z0-9_.]+` (claim C2), stated on a whole key. -/
def specKeyCharset (k : Str) : Bool :=
  !k.isEmpty && k.all (fun c =>
    (65 ≤ c.toNat && c.toNat ≤ 90) || (97 ≤ c.toNat && c.toNat ≤ 122) ||
    (48 ≤ c.toNat && c.toNat ≤ 57) || c == '_' || c == '.')

/-- A plain ASCII lowercase letter: a convenient value alphabet that no phase of the
parser rewrites. -/
def plainChar (c : Char) : Bool := 97 ≤ c.toNat && c.toNat ≤ 122

theorem char_eq_iff_toNat {c d : Char} : c = d ↔ c.toNat = d.toNat :=
  ⟨fun h => h ▸ rfl, fun h => Char.eq_of_val_eq (UInt32.toNat.inj h)⟩

theorem validKey_not_space {c : Char} (h : validKeyCharB c = true) : goIsSpace c = false := by
  simp only [validKeyCharB, Bool.or_eq_true, beq_iff_eq] at h
  simp only [goIsSpace, Bool.or_eq_false_iff, beq_eq_false_iff_ne, ne_eq]
  rcases h with ((rfl | h) | h) | rfl
  · decide
  · simp only [goIsLetter, Bool.or_eq_true, beq_iff_eq, Bool.and_eq_true,
      decide_eq_true_eq] at h
    omega
  · simp only [goIsNumber, Bool.or_eq_true, beq_iff_eq, Bool.and_eq_true,
      decide_eq_true_eq] at h
    omega
  · decide

theorem validKey_not_unicodeSpace {c : Char} (h : validKeyCharB c = true) :
    unicodeIsSpace c = false := by
  have hs := validKey_not_space h
  simp only [validKeyCharB, Bool.or_eq_true, beq_iff_eq] at h
  simp only [unicodeIsSpace, Bool.or_eq_false_iff, beq_eq_false_iff_ne, ne_eq, hs,
    and_true]
  rcases h with ((rfl | h) | h) | rfl
  · decide
  · simp only [goIsLetter, Bool.or_eq_true, beq_iff_eq, Bool.and_eq_true,
      decide_eq_true_eq] at h
    omega
  · simp only [goIsNumber, Bool.or_eq_true, beq_iff_eq, Bool.and_eq_true,
      decide_eq_true_eq] at h
    omega
  · decide

theorem validKey_not_delim {c : Char} (h : validKeyCharB c = true) : ¬(c = '=' ∨ c = ':') := by
  rintro (rfl | rfl) <;> exact absurd h (by decide)

theorem validKey_ne_hash {c : Char} (h : validKeyCharB c = true) : c ≠ '#' :=
  fun he => absurd (he ▸ h) (by decide)

theorem validKey_ne_quote {c : Char} (h : validKeyCharB c = true) : c ≠ '"' ∧ c ≠ '\'' :=
  ⟨fun he => absurd (he ▸ h) (by decide), fun he => absurd (he ▸ h) (by decide)⟩

theorem validKey_branch {c : Char} (h : validKeyCharB c = true) (hne : c ≠ '_') :
    (goIsLetter c || goIsNumber c || c = '.') = true := by
  simp only [validKeyCharB, Bool.or_eq_true, beq_iff_eq] at h
  rcases h with ((rfl | h) | h) | rfl
  · exact absurd rfl hne
  · simp [h]
  · simp [h]
  · simp

theorem plain_facts {c : Char} (h : plainChar c = true) :
    goIsSpace c = false ∧ isLineEnd c = false ∧ c ≠ '#' ∧ c ≠ '$' ∧ c ≠ '\\' ∧
    c ≠ '"' ∧ c ≠ '\'' ∧ c ≠ '\r' ∧ c ≠ '\n' := by
  refine ⟨?_, ?_, fun he => absurd (he ▸ h) (by decide), fun he => absurd (he ▸ h) (by decide),
    fun he => absurd (he ▸ h) (by decide), fun he => absurd (he ▸ h) (by decide),
    fun he => absurd (he ▸ h) (by decide), fun he => absurd (he ▸ h) (by decide),
    fun he => absurd (he ▸ h) (by decide)⟩ <;>
  · simp only [plainChar, Bool.and_eq_true, decide_eq_true_eq] at h
    simp only [goIsSpace, isLineEnd, Bool.or_eq_false_iff, beq_eq_false_iff_ne, ne_eq]
    omega

theorem plain_not_lineEnd {c : Char} (h : plainChar c = true) : isLineEnd c = false :=
  (plain_facts h).2.1

/-! ## Helper lemmas: lists and trimming -/

theorem takeWhile_append_eq (p : Char → Bool) (a b : Str)
    (ha : ∀ c ∈ a, p c = true) (hb : ∀ x, b.head? = some x → p x = false) :
    (a ++ b).takeWhile p = a := by
  induction a with
  | nil =>
    cases b with
    | nil => rfl
    | cons x xs => simp [List.takeWhile, hb x rfl]
  | cons c t ih => simp_all [List.takeWhile]

theorem dropWhile_append_eq (p : Char → Bool) (a b : Str)
    (ha : ∀ c ∈ a, p c = true) (hb : ∀ x, b.head? = some x → p x = false) :
    (a ++ b).dropWhile p = b := by
  induction a with
  | nil =>
    cases b with
    | nil => rfl
    | cons x xs => simp [List.dropWhile, hb x rfl]
  | cons c t ih => simp_all [List.dropWhile]

theorem dropWhile_eq_self_of_head (p : Char → Bool) (l : Str)
    (h : ∀ x, l.head? = some x → p x = false) : l.dropWhile p = l := by
  cases l with
  | nil => rfl
  | cons c t => simp [List.dropWhile, h c rfl]

theorem head?_dropWhile_not (p : Char → Bool) (l : Str) :
    ∀ x, (l.dropWhile p).head? = some x → p x = false := by
  induction l with
  | nil => intro x hx; cases hx
  | cons c t ih =>
    intro x hx
    by_cases hc : p c
    · exact ih x (by simpa [List.dropWhile, hc] using hx)
    · simp only [List.dropWhile, hc] at hx
      simp only [Bool.false_eq_true, if_false, List.head?_cons, Option.some.injEq] at hx
      exact hx ▸ (by simpa using hc)

theorem trimLeftB_nil (p : Char → Bool) : trimLeftB p [] = [] := rfl

theorem trimLeftB_cons_of_not (p : Char → Bool) (c : Char) (t : Str) (h : p c = false) :
    trimLeftB p (c :: t) = c :: t := by
  simp [trimLeftB, List.dropWhile, h]

theorem trimLeftB_eq_self (p : Char → Bool) (s : Str)
    (h : ∀ x, s.head? = some x → p x = false) : trimLeftB p s = s :=
  dropWhile_eq_self_of_head p s h

theorem trimRightB_eq_self (p : Char → Bool) (s : Str)
    (h : ∀ x, s.getLast? = some x → p x = false) : trimRightB p s = s := by
  unfold trimRightB
  rw [dropWhile_eq_self_of_head, List.reverse_reverse]
  intro x hx
  exact h x (by rwa [List.head?_reverse] at hx)

theorem mem_trimRightB {p : Char → Bool} {s : Str} {x : Char} (h : x ∈ trimRightB p s) :
    x ∈ s := by
  unfold trimRightB at h
  rw [List.mem_reverse] at h
  exact List.mem_reverse.mp ((List.dropWhile_sublist p).mem h)

theorem getLast?_trimRightB (p : Char → Bool) (s : Str) :
    ∀ x, (trimRightB p s).getLast? = some x → p x = false := by
  intro x hx
  unfold trimRightB at hx
  rw [← List.head?_reverse, List.reverse_reverse] at hx
  exact head?_dropWhile_not p s.reverse x hx

theorem trimB_eq_self (p : Char → Bool) (s : Str)
    (hh : ∀ x, s.head? = some x → p x = false)
    (hl : ∀ x, s.getLast? = some x → p x = false) : trimB p s = s := by
  unfold trimB
  rw [trimRightB_eq_self p s hl, trimLeftB_eq_self p s hh]

/-! ## Helper lemmas: the UTF-8 right trim of keys -/

theorem uniIsSpaceRune_false_of (r : Nat)
    (h : (32 < r ∧ r < 0x85) ∨ (0xA0 < r ∧ r < 0x1680) ∨ (0x1680 < r ∧ r < 0x2000) ∨
         (0x205F < r ∧ r < 0x3000) ∨ 0x3000 < r) :
    uniIsSpaceRune r = false := by
  simp only [uniIsSpaceRune, Bool.or_eq_false_iff, beq_eq_false_iff_ne, ne_eq,
    Bool.and_eq_false_iff, decide_eq_false_iff_not, not_le]
  omega

theorem validKey_toNat {c : Char} (h : validKeyCharB c = true) :
    c.toNat = 0x5F ∨ c.toNat = 0x2E ∨ (65 ≤ c.toNat ∧ c.toNat ≤ 90) ∨
    (97 ≤ c.toNat ∧ c.toNat ≤ 122) ∨ (48 ≤ c.toNat ∧ c.toNat ≤ 57) ∨
    c.toNat = 0xAA ∨ c.toNat = 0xB5 ∨ c.toNat = 0xBA ∨ c.toNat = 0xB2 ∨
    c.toNat = 0xB3 ∨ c.toNat = 0xB9 ∨ c.toNat = 0xBC ∨ c.toNat = 0xBD ∨
    c.toNat = 0xBE ∨ (0xC0 ≤ c.toNat ∧ c.toNat ≤ 0xD6) ∨
    (0xD8 ≤ c.toNat ∧ c.toNat ≤ 0xF6) ∨ (0xF8 ≤ c.toNat ∧ c.toNat ≤ 0xFF) := by
  simp only [validKeyCharB, goIsLetter, goIsNumber, Bool.or_eq_true, Bool.and_eq_true,
    decide_eq_true_eq, beq_iff_eq, char_eq_iff_toNat, show ('_').toNat = 95 from rfl,
    show ('.').toNat = 46 from rfl] at h
  omega

theorem utf8DecodeRune_two (b0 b1 : Char) :
    utf8DecodeRune [b0, b1]
      = if b0.toNat < 0x80 then (b0.toNat, 1)
        else if b0.toNat < 0xC2 then (0xFFFD, 1)
        else if b0.toNat ≤ 0xDF then
          if 0x80 ≤ b1.toNat && b1.toNat ≤ 0xBF then
            ((b0.toNat - 0xC0) * 0x40 + (b1.toNat - 0x80), 2)
          else (0xFFFD, 1)
        else if b0.toNat ≤ 0xEF then (0xFFFD, 1)
        else if b0.toNat ≤ 0xF4 then (0xFFFD, 1)
        else (0xFFFD, 1) := rfl

theorem utf8DecodeRune_three (b0 b1 b2 : Char) :
    utf8DecodeRune [b0, b1, b2]
      = if b0.toNat < 0x80 then (b0.toNat, 1)
        else if b0.toNat < 0xC2 then (0xFFFD, 1)
        else if b0.toNat ≤ 0xDF then
          if 0x80 ≤ b1.toNat && b1.toNat ≤ 0xBF then
            ((b0.toNat - 0xC0) * 0x40 + (b1.toNat - 0x80), 2)
          else (0xFFFD, 1)
        else if b0.toNat ≤ 0xEF then
          if ((if b0.toNat == 0xE0 then 0xA0 else 0x80) ≤ b1.toNat &&
                b1.toNat ≤ (if b0.toNat == 0xED then 0x9F else 0xBF)) &&
              (0x80 ≤ b2.toNat && b2.toNat ≤ 0xBF) then
            ((b0.toNat - 0xE0) * 0x1000 + (b1.toNat - 0x80) * 0x40 + (b2.toNat - 0x80), 3)
          else (0xFFFD, 1)
        else if b0.toNat ≤ 0xF4 then (0xFFFD, 1)
        else (0xFFFD, 1) := rfl

theorem utf8DecodeRune_four (b0 b1 b2 b3 : Char) :
    utf8DecodeRune [b0, b1, b2, b3]
      = if b0.toNat < 0x80 then (b0.toNat, 1)
        else if b0.toNat < 0xC2 then (0xFFFD, 1)
        else if b0.toNat ≤ 0xDF then
          if 0x80 ≤ b1.toNat && b1.toNat ≤ 0xBF then
            ((b0.toNat - 0xC0) * 0x40 + (b1.toNat - 0x80), 2)
          else (0xFFFD, 1)
        else if b0.toNat ≤ 0xEF then
          if ((if b0.toNat == 0xE0 then 0xA0 else 0x80) ≤ b1.toNat &&
                b1.toNat ≤ (if b0.toNat == 0xED then 0x9F else 0xBF)) &&
              (0x80 ≤ b2.toNat && b2.toNat ≤ 0xBF) then
            ((b0.toNat - 0xE0) * 0x1000 + (b1.toNat - 0x80) * 0x40 + (b2.toNat - 0x80), 3)
          else (0xFFFD, 1)
        else if b0.toNat ≤ 0xF4 then
          if ((if b0.toNat == 0xF0 then 0x90 else 0x80) ≤ b1.toNat &&
                b1.toNat ≤ (if b0.toNat == 0xF4 then 0x8F else 0xBF)) &&
              ((0x80 ≤ b2.toNat && b2.toNat ≤ 0xBF) &&
                (0x80 ≤ b3.toNat && b3.toNat ≤ 0xBF)) then
            ((b0.toNat - 0xF0) * 0x40000 + (b1.toNat - 0x80) * 0x1000 +
              (b2.toNat - 0x80) * 0x40 + (b3.toNat - 0x80), 4)
          else (0xFFFD, 1)
        else (0xFFFD, 1) := rfl

theorem decodeTwo_not_space (b1 b : Char) (h1 : validKeyCharB b1 = true)
    (hb : validKeyCharB b = true) :
    uniIsSpaceRune (lastRuneCheck (utf8DecodeRune [b1, b]) 2).1 = false := by
  have a1 := validKey_toNat h1
  have ab := validKey_toNat hb
  rw [utf8DecodeRune_two]
  by_cases hc0 : b1.toNat < 0x80
  · rw [if_pos hc0]; rfl
  · rw [if_neg hc0]
    by_cases hc2 : b1.toNat < 0xC2
    · rw [if_pos hc2]; rfl
    · rw [if_neg hc2]
      by_cases hdf : b1.toNat ≤ 0xDF
      · rw [if_pos hdf]
        by_cases hcb : (0x80 ≤ b.toNat && b.toNat ≤ 0xBF) = true
        · rw [if_pos hcb]
          simp only [Bool.and_eq_true, decide_eq_true_eq] at hcb
          show uniIsSpaceRune ((b1.toNat - 0xC0) * 0x40 + (b.toNat - 0x80)) = false
          apply uniIsSpaceRune_false_of
          omega
        · rw [if_neg hcb]; rfl
      · rw [if_neg hdf]
        by_cases hef : b1.toNat ≤ 0xEF
        · rw [if_pos hef]; rfl
        · rw [if_neg hef]
          by_cases hf4 : b1.toNat ≤ 0xF4
          · rw [if_pos hf4]; rfl
          · rw [if_neg hf4]; rfl

theorem decodeThree_not_space (b2 b1 b : Char) (h2 : validKeyCharB b2 = true)
    (h1 : validKeyCharB b1 = true) (hb : validKeyCharB b = true)
    (hs1 : runeStart b1 = false) :
    uniIsSpaceRune (lastRuneCheck (utf8DecodeRune [b2, b1, b]) 3).1 = false := by
  have a2 := validKey_toNat h2
  have a1 := validKey_toNat h1
  have ab := validKey_toNat hb
  have hr1 : 0x80 ≤ b1.toNat ∧ b1.toNat ≤ 0xBF := by
    simp only [runeStart, Bool.not_eq_false', Bool.and_eq_true, decide_eq_true_eq] at hs1
    exact hs1
  rw [utf8DecodeRune_three]
  by_cases hc0 : b2.toNat < 0x80
  · rw [if_pos hc0]; rfl
  · rw [if_neg hc0]
    by_cases hc2 : b2.toNat < 0xC2
    · rw [if_pos hc2]; rfl
    · rw [if_neg hc2]
      by_cases hdf : b2.toNat ≤ 0xDF
      · rw [if_pos hdf]
        by_cases hcb : (0x80 ≤ b1.toNat && b1.toNat ≤ 0xBF) = true
        · rw [if_pos hcb]; rfl
        · rw [if_neg hcb]; rfl
      · rw [if_neg hdf]
        by_cases hef : b2.toNat ≤ 0xEF
        · rw [if_pos hef]
          by_cases hacc : (((if b2.toNat == 0xE0 then 0xA0 else 0x80) ≤ b1.toNat &&
                b1.toNat ≤ (if b2.toNat == 0xED then 0x9F else 0xBF)) &&
              (0x80 ≤ b.toNat && b.toNat ≤ 0xBF)) = true
          · rw [if_pos hacc]
            simp only [Bool.and_eq_true, decide_eq_true_eq] at hacc
            have hcb := hacc.2
            show uniIsSpaceRune
              ((b2.toNat - 0xE0) * 0x1000 + (b1.toNat - 0x80) * 0x40 + (b.toNat - 0x80))
                = false
            apply uniIsSpaceRune_false_of
            omega
          · rw [if_neg hacc]; rfl
        · rw [if_neg hef]
          by_cases hf4 : b2.toNat ≤ 0xF4
          · rw [if_pos hf4]; rfl
          · rw [if_neg hf4]; rfl

theorem decodeFour_not_space (b3 b2 b1 b : Char) (h3 : validKeyCharB b3 = true)
    (h2 : validKeyCharB b2 = true) (hs2 : runeStart b2 = false) :
    uniIsSpaceRune (lastRuneCheck (utf8DecodeRune [b3, b2, b1, b]) 4).1 = false := by
  have a3 := validKey_toNat h3
  have a2 := validKey_toNat h2
  have hr2 : 0x80 ≤ b2.toNat ∧ b2.toNat ≤ 0xBF := by
    simp only [runeStart, Bool.not_eq_false', Bool.and_eq_true, decide_eq_true_eq] at hs2
    exact hs2
  rw [utf8DecodeRune_four]
  by_cases hc0 : b3.toNat < 0x80
  · rw [if_pos hc0]; rfl
  · rw [if_neg hc0]
    by_cases hc2 : b3.toNat < 0xC2
    · rw [if_pos hc2]; rfl
    · rw [if_neg hc2]
      by_cases hdf : b3.toNat ≤ 0xDF
      · rw [if_pos hdf]
        by_cases hcb : (0x80 ≤ b2.toNat && b2.toNat ≤ 0xBF) = true
        · rw [if_pos hcb]; rfl
        · rw [if_neg hcb]; rfl
      · rw [if_neg hdf]
        by_cases hef : b3.toNat ≤ 0xEF
        · rw [if_pos hef]
          by_cases hacc : (((if b3.toNat == 0xE0 then 0xA0 else 0x80) ≤ b2.toNat &&
                b2.toNat ≤ (if b3.toNat == 0xED then 0x9F else 0xBF)) &&
              (0x80 ≤ b1.toNat && b1.toNat ≤ 0xBF)) = true
          · rw [if_pos hacc]; rfl
          · rw [if_neg hacc]; rfl
        · rw [if_neg hef]
          by_cases hf4 : b3.toNat ≤ 0xF4
          · rw [if_pos hf4]
            by_cases hacc : (((if b3.toNat == 0xF0 then 0x90 else 0x80) ≤ b2.toNat &&
                  b2.toNat ≤ (if b3.toNat == 0xF4 then 0x8F else 0xBF)) &&
                ((0x80 ≤ b1.toNat && b1.toNat ≤ 0xBF) &&
                  (0x80 ≤ b.toNat && b.toNat ≤ 0xBF))) = true
            · rw [if_pos hacc]
              show uniIsSpaceRune
                ((b3.toNat - 0xF0) * 0x40000 + (b2.toNat - 0x80) * 0x1000 +
                  (b1.toNat - 0x80) * 0x40 + (b.toNat - 0x80)) = false
              apply uniIsSpaceRune_false_of
              omega
            · rw [if_neg hacc]; rfl
          · rw [if_neg hf4]; rfl

theorem decodeLast_valid_not_space (k : Str) (hk : ∀ c ∈ k, validKeyCharB c = true) :
    uniIsSpaceRune (utf8DecodeLastRune k).1 = false := by
  have hkr : ∀ c ∈ k.reverse, validKeyCharB c = true :=
    fun c hc => hk c (List.mem_reverse.mp hc)
  unfold utf8DecodeLastRune
  cases hr : k.reverse with
  | nil => rfl
  | cons b rs =>
    have hb : validKeyCharB b = true := hkr b (hr ▸ List.mem_cons_self b rs)
    simp only [utf8DecodeLastAux]
    by_cases h0 : b.toNat < 0x80
    · rw [if_pos h0]
      have ab := validKey_toNat hb
      apply uniIsSpaceRune_false_of
      omega
    · rw [if_neg h0]
      cases rs with
      | nil => rfl
      | cons b1 rs1 =>
        have h1 : validKeyCharB b1 = true :=
          hkr b1 (hr ▸ List.mem_cons_of_mem b (List.mem_cons_self b1 rs1))
        simp only [lastLook1]
        by_cases hs1 : runeStart b1 = true
        · rw [if_pos hs1]
          exact decodeTwo_not_space b1 b h1 hb
        · rw [if_neg hs1]
          cases rs1 with
          | nil => rfl
          | cons b2 rs2 =>
            have h2 : validKeyCharB b2 = true :=
              hkr b2 (hr ▸ List.mem_cons_of_mem b
                (List.mem_cons_of_mem b1 (List.mem_cons_self b2 rs2)))
            simp only [lastLook2]
            by_cases hs2 : runeStart b2 = true
            · rw [if_pos hs2]
              exact decodeThree_not_space b2 b1 b h2 h1 hb
                (Bool.not_eq_true _ ▸ hs1)
            · rw [if_neg hs2]
              cases rs2 with
              | nil => rfl
              | cons b3 rs3 =>
                have h3 : validKeyCharB b3 = true :=
                  hkr b3 (hr ▸ List.mem_cons_of_mem b (List.mem_cons_of_mem b1
                    (List.mem_cons_of_mem b2 (List.mem_cons_self b3 rs3))))
                simp only [lastLook3]
                by_cases hs3 : runeStart b3 = true
                · rw [if_pos hs3]
                  exact decodeFour_not_space b3 b2 b1 b h3 h2
                    (Bool.not_eq_true _ ▸ hs2)
                · rw [if_neg hs3]
                  rfl

theorem utf8DecodeLastRune_ascii (s : Str) (x : Char) (h : s.getLast? = some x)
    (hx : x.toNat < 0x80) : utf8DecodeLastRune s = (x.toNat, 1) := by
  unfold utf8DecodeLastRune
  cases hr : s.reverse with
  | nil =>
    rw [List.reverse_eq_nil_iff] at hr
    rw [hr] at h
    cases h
  | cons b rs =>
    have hbx : b = x := by
      have hh := List.head?_reverse s
      rw [hr] at hh
      rw [h] at hh
      exact Option.some.inj hh
    subst hbx
    simp only [utf8DecodeLastAux]
    rw [if_pos hx]

theorem lastRuneCheck_size_pos (p : Nat × Nat) (need : Nat) (h : 1 ≤ need) :
    1 ≤ (lastRuneCheck p need).2 := by
  unfold lastRuneCheck
  by_cases hb : (p.2 == need) = true
  · rw [if_pos hb]
    rw [Nat.beq_eq_true_eq] at hb
    omega
  · rw [if_neg hb]

theorem utf8DecodeLastRune_size_pos (s : Str) (h : s ≠ []) :
    1 ≤ (utf8DecodeLastRune s).2 := by
  unfold utf8DecodeLastRune
  cases hr : s.reverse with
  | nil => exact absurd (List.reverse_eq_nil_iff.mp hr) h
  | cons b rs =>
    simp only [utf8DecodeLastAux]
    by_cases h0 : b.toNat < 0x80
    · rw [if_pos h0]
    · rw [if_neg h0]
      cases rs with
      | nil => exact Nat.le_refl 1
      | cons b1 rs1 =>
        simp only [lastLook1]
        by_cases hs1 : runeStart b1 = true
        · rw [if_pos hs1]
          exact lastRuneCheck_size_pos _ 2 (by omega)
        · rw [if_neg hs1]
          cases rs1 with
          | nil => exact Nat.le_refl 1
          | cons b2 rs2 =>
            simp only [lastLook2]
            by_cases hs2 : runeStart b2 = true
            · rw [if_pos hs2]
              exact lastRuneCheck_size_pos _ 3 (by omega)
            · rw [if_neg hs2]
              cases rs2 with
              | nil => exact Nat.le_refl 1
              | cons b3 rs3 =>
                simp only [lastLook3]
                by_cases hs3 : runeStart b3 = true
                · rw [if_pos hs3]
                  exact lastRuneCheck_size_pos _ 4 (by omega)
                · rw [if_neg hs3]

theorem trimRightUniGo_mem (f : Nat) : ∀ s x, x ∈ trimRightUniGo f s → x ∈ s := by
  induction f with
  | zero => intro s x h; exact h
  | succ f ih =>
    intro s x h
    rw [trimRightUniGo] at h
    by_cases he : s.isEmpty = true
    · rwa [if_pos he] at h
    · rw [if_neg he] at h
      by_cases hsp : uniIsSpaceRune (utf8DecodeLastRune s).1 = true
      · rw [if_pos hsp] at h
        exact (List.take_sublist _ _).subset (ih _ x h)
      · rwa [if_neg hsp] at h

theorem mem_trimRightUni {s : Str} {x : Char} (h : x ∈ trimRightUni s) : x ∈ s :=
  trimRightUniGo_mem (s.length + 1) s x h

theorem trimRightUniGo_last (f : Nat) : ∀ s, s.length < f →
    ∀ x, (trimRightUniGo f s).getLast? = some x → asciiSpaceB x = false := by
  induction f with
  | zero => intro s hs; exact absurd hs (Nat.not_lt_zero _)
  | succ f ih =>
    intro s hs x hx
    rw [trimRightUniGo] at hx
    by_cases he : s.isEmpty = true
    · rw [if_pos he] at hx
      cases s with
      | nil => cases hx
      | cons a t => exact absurd he (by simp)
    · rw [if_neg he] at hx
      have hne : s ≠ [] := fun hcon => he (by rw [hcon]; rfl)
      by_cases hsp : uniIsSpaceRune (utf8DecodeLastRune s).1 = true
      · rw [if_pos hsp] at hx
        refine ih _ ?_ x hx
        have hpos := utf8DecodeLastRune_size_pos s hne
        have hl : 0 < s.length := List.length_pos.mpr hne
        rw [List.length_take]
        omega
      · rw [if_neg hsp] at hx
        by_contra hcon
        rw [Bool.not_eq_false] at hcon
        have hxlt : x.toNat < 0x80 := by
          simp only [asciiSpaceB, Bool.or_eq_true, beq_iff_eq] at hcon
          omega
        rw [utf8DecodeLastRune_ascii s x hx hxlt] at hsp
        apply hsp
        simp only [asciiSpaceB, Bool.or_eq_true, beq_iff_eq] at hcon
        simp only [uniIsSpaceRune, Bool.or_eq_true, Bool.and_eq_true,
          decide_eq_true_eq, beq_iff_eq]
        omega

theorem getLast?_trimRightUni (s : Str) :
    ∀ x, (trimRightUni s).getLast? = some x → asciiSpaceB x = false :=
  trimRightUniGo_last (s.length + 1) s (Nat.lt_succ_self _)

theorem trimRightUni_eq_self (k : Str) (hk : ∀ c ∈ k, validKeyCharB c = true) :
    trimRightUni k = k := by
  unfold trimRightUni
  rw [trimRightUniGo, decodeLast_valid_not_space k hk]
  simp

/-! ## Helper lemmas: CRLF normalization and statement starts -/

theorem normalizeCRLF_id (s : Str) (h : ∀ c ∈ s, c ≠ '\r') : normalizeCRLF s = s := by
  induction s with
  | nil => rfl
  | cons c t ih =>
    have hc : c ≠ '\r' := h c (List.mem_cons_self _ _)
    have ht := ih (fun x hx => h x (List.mem_cons_of_mem _ hx))
    rw [normalizeCRLF.eq_def]
    split <;> simp_all

theorem getStatementStart_nil : getStatementStart [] = none := rfl

theorem getStatementStart_cons (c : Char) (t : Str) (h1 : unicodeIsSpace c = false)
    (h2 : c ≠ '#') : getStatementStart (c :: t) = some (c :: t) := by
  simp [getStatementStart, stmtStart, h1, h2]

theorem getStatementStart_newline (x : Str) :
    getStatementStart ('\n' :: x) = getStatementStart x := rfl

/-! ## Helper lemmas: key scanning -/

theorem scanKey_valid_append (k w : Str) (hk : ∀ c ∈ k, validKeyCharB c = true) :
    scanKey (k ++ '=' :: w) = .found k w := by
  induction k with
  | nil => rfl
  | cons c t ih =>
    have hc := hk c (List.mem_cons_self _ _)
    have ht := ih (fun x hx => hk x (List.mem_cons_of_mem _ hx))
    have h1 := validKey_not_space hc
    have h2 := validKey_not_delim hc
    by_cases h3 : c = '_'
    · simp [scanKey, h1, h2, h3, ht, scanKeyCons]
    · have h4 := validKey_branch hc h3
      simp [scanKey, h1, h2, h3, h4, ht, scanKeyCons]

theorem export_drop6_head_not_space (k w : Str) (hk : ∀ c ∈ k, validKeyCharB c = true)
    (hpre : "export".data <+: (k ++ '=' :: w)) :
    ∀ x, ((k ++ '=' :: w).drop 6).head? = some x → goIsSpace x = false := by
  intro x hx
  rcases Nat.lt_or_ge k.length 6 with hlt | hge
  · exfalso
    obtain ⟨t, ht⟩ := hpre
    have h1 : (k ++ '=' :: w)[k.length]? = some '=' := by
      rw [List.getElem?_append_right (Nat.le_refl _)]
      simp
    rw [← ht, List.getElem?_append_left (by simpa using hlt)] at h1
    set n := k.length with hn
    interval_cases n <;> exact absurd h1 (by decide)
  · rw [List.drop_append_of_le_length hge] at hx
    cases hd : k.drop 6 with
    | nil => rw [hd] at hx; simp at hx; exact hx ▸ (by decide)
    | cons y ys =>
      rw [hd] at hx
      simp only [List.cons_append, List.head?_cons, Option.some.injEq] at hx
      subst hx
      exact validKey_not_space (hk y (List.drop_subset 6 k (hd ▸ List.mem_cons_self _ _)))

theorem mem_of_getLast?_eq {l : Str} {x : Char} (h : l.getLast? = some x) : x ∈ l := by
  obtain ⟨hne, hx⟩ := List.mem_getLast?_eq_getLast (Option.mem_def.mpr h)
  exact hx ▸ List.getLast_mem hne

theorem exportAdjust_valid (k w : Str) (hk : ∀ c ∈ k, validKeyCharB c = true) :
    exportAdjust (k ++ '=' :: w) = k ++ '=' :: w := by
  unfold exportAdjust
  by_cases hpre : "export".data.isPrefixOf (k ++ '=' :: w)
  · rw [if_pos hpre]
    have hns := export_drop6_head_not_space k w hk (List.isPrefixOf_iff_prefix.mp hpre)
    cases hd : (k ++ '=' :: w).drop 6 with
    | nil => rfl
    | cons y ys =>
      have : goIsSpace y = false := hns y (by rw [hd]; rfl)
      simp [this]
  · rw [if_neg hpre]

theorem locateKeyName_valid (k w : Str) (hne : k ≠ [])
    (hk : ∀ c ∈ k, validKeyCharB c = true) :
    locateKeyName (k ++ '=' :: w) = .ok (k, trimLeftB goIsSpace w) := by
  obtain ⟨c0, k', rfl⟩ := List.exists_cons_of_ne_nil hne
  have h0 : validKeyCharB c0 = true := hk c0 (List.mem_cons_self _ _)
  have hs1 : trimLeftB goIsSpace ((c0 :: k') ++ '=' :: w) = (c0 :: k') ++ '=' :: w := by
    rw [List.cons_append]
    exact trimLeftB_cons_of_not _ _ _ (validKey_not_space h0)
  unfold locateKeyName
  rw [hs1, exportAdjust_valid _ _ hk, locateKeyNameAt, scanKey_valid_append _ _ hk]
  have hkey : trimRightUni (c0 :: k') = c0 :: k' := trimRightUni_eq_self _ hk
  simp [hkey]

/-! ## Helper lemmas: lines, inline comments, value extraction -/

theorem findEndOfLine_append (a b : Str) (ha : ∀ c ∈ a, isLineEnd c = false)
    (hb : ∀ x, b.head? = some x → isLineEnd x = true) :
    findEndOfLine (a ++ b) = a.length := by
  induction a with
  | nil =>
    cases b with
    | nil => rfl
    | cons x xs => simp [findEndOfLine, hb x rfl]
  | cons c t ih => simp_all [findEndOfLine]

theorem getD_hash_ne {line : Str} (h : '#' ∉ line) : ∀ j, line.getD j '\x00' ≠ '#' := by
  induction line with
  | nil => intro j; rw [List.getD_nil]; decide
  | cons c t ih =>
    intro j
    cases j with
    | zero => rw [List.getD_cons_zero]; exact fun he => h (he ▸ List.mem_cons_self _ _)
    | succ n =>
      rw [List.getD_cons_succ]
      exact ih (fun hm => h (List.mem_cons_of_mem _ hm)) n

theorem findEndOfVarAux_no_hash (line : Str) (h : '#' ∉ line) :
    ∀ i, findEndOfVarAux line i = line.length := by
  intro i
  induction i with
  | zero => rfl
  | succ j ih =>
    rw [findEndOfVarAux, if_neg (fun hand => getD_hash_ne h (j + 1) hand.1)]
    exact ih

theorem findEndOfVar_no_hash (line : Str) (h : '#' ∉ line) :
    findEndOfVar line = line.length :=
  findEndOfVarAux_no_hash line h _

theorem extractUnquotedValue_plain (r tail : Str) (vars : EnvMap)
    (hr : ∀ c ∈ r, isLineEnd c = false ∧ c ≠ '#')
    (htail : ∀ x, tail.head? = some x → isLineEnd x = true) :
    extractUnquotedValue (r ++ tail) vars = (expandVariables (trimGoB r) vars, [], tail) := by
  have hEol : findEndOfLine (r ++ tail) = r.length :=
    findEndOfLine_append r tail (fun c hc => (hr c hc).1) htail
  have hEov : findEndOfVar r = r.length :=
    findEndOfVar_no_hash r (fun hmem => (hr '#' hmem).2 rfl)
  have hcond : ¬(r.length > 0 ∧ r.length = r.length ∧ List.take 1 r = ['#']) := by
    rintro ⟨hpos, -, htk⟩
    have hm : '#' ∈ r := by
      have : '#' ∈ r.take 1 := htk ▸ List.mem_cons_self _ _
      exact List.mem_of_mem_take this
    exact (hr '#' hm).2 rfl
  simp only [extractUnquotedValue]
  rw [hEol, List.take_left, List.drop_left, hEov, if_neg hcond, List.take_length,
    if_neg (by omega : ¬(r.length + 1 < r.length))]

theorem splitAtClosingQuote_found (q : Char) (inner tail : Str)
    (hin : ∀ c ∈ inner, c ≠ q) :
    ∀ prev, inner.getLastD prev ≠ '\\' →
      splitAtClosingQuote q prev (inner ++ q :: tail) = some (inner, tail) := by
  induction inner with
  | nil =>
    intro prev hlast
    simp only [List.getLastD_nil] at hlast
    simp [splitAtClosingQuote, hlast]
  | cons c inner' ih =>
    intro prev hlast
    have hc : c ≠ q := hin c (List.mem_cons_self _ _)
    rw [List.cons_append]
    unfold splitAtClosingQuote
    rw [if_neg (fun hand => hc hand.1)]
    rw [ih (fun x hx => hin x (List.mem_cons_of_mem _ hx)) c
      (by rwa [List.getLastD_cons] at hlast)]

theorem splitAtClosingQuote_none (q : Char) (s : Str) (h : ∀ c ∈ s, c ≠ q) :
    ∀ prev, splitAtClosingQuote q prev s = none := by
  induction s with
  | nil => intro prev; rfl
  | cons c t ih =>
    intro prev
    unfold splitAtClosingQuote
    rw [if_neg (fun hand => h c (List.mem_cons_self _ _) hand.1)]
    rw [ih (fun x hx => h x (List.mem_cons_of_mem _ hx)) c]

theorem trim_quote_ends (q : Char) (inner : Str) (h : ∀ c ∈ inner, c ≠ q) :
    trimLeftB (· == q) (trimRightB (· == q) (q :: inner)) = inner := by
  cases hi : inner with
  | nil => simp [trimRightB, trimLeftB, List.dropWhile]
  | cons c t =>
    subst hi
    have hr : trimRightB (· == q) (q :: c :: t) = q :: c :: t := by
      apply trimRightB_eq_self
      intro x hx
      have hx' : (c :: t).getLast? = some x := by
        rwa [List.getLast?_cons_cons] at hx
      simpa using h x (mem_of_getLast?_eq hx')
    rw [hr]
    unfold trimLeftB
    rw [List.dropWhile_cons_of_pos (by simp)]
    exact dropWhile_eq_self_of_head _ _ (fun x hx => by
      cases hx
      simpa using h c (List.mem_cons_self _ _))

theorem extractQuotedValue_found (q : Char) (inner tail : Str) (vars : EnvMap)
    (hin : ∀ c ∈ inner, c ≠ q) (hlast : inner.getLastD q ≠ '\\') :
    ∃ cmt, extractQuotedValue (q :: (inner ++ q :: tail)) vars q
      = .ok ((if q = '"' then expandVariables (expandEscapes inner) vars else inner),
        cmt, tail) := by
  simp only [extractQuotedValue, splitAtClosingQuote_found q inner tail hin q hlast,
    trim_quote_ends q inner hin]
  exact ⟨_, rfl⟩

theorem extractVarValue_unquoted (src : Str) (vars : EnvMap)
    (h : ∀ x, src.head? = some x → x ≠ '"' ∧ x ≠ '\'') :
    extractVarValue src vars = .ok (extractUnquotedValue src vars) := by
  cases src with
  | nil => rfl
  | cons c t =>
    have hh := h c rfl
    simp only [extractVarValue, quoteAtStart]
    rw [if_neg (by tauto)]

theorem extractVarValue_quoted (c : Char) (t : Str) (vars : EnvMap)
    (h : c = '"' ∨ c = '\'') :
    extractVarValue (c :: t) vars = extractQuotedValue (c :: t) vars c := by
  simp only [extractVarValue, quoteAtStart]
  rw [if_pos h]

/-! ## Helper lemmas: escape decoding -/

theorem upperVar_facts {c : Char} (h : isUpperVarChar c = true) :
    c ≠ '(' ∧ c ≠ '\x7b' ∧ c ≠ '\x7d' ∧ c ≠ '$' ∧ c ≠ '\\' :=
  ⟨fun he => absurd (he ▸ h) (by decide), fun he => absurd (he ▸ h) (by decide),
   fun he => absurd (he ▸ h) (by decide), fun he => absurd (he ▸ h) (by decide),
   fun he => absurd (he ▸ h) (by decide)⟩

theorem expandVarsGo_cons_other (m : EnvMap) (f : Nat) (c : Char) (t : Str)
    (h1 : c ≠ '\\') (h2 : c ≠ '$') :
    expandVarsGo m (f + 1) (c :: t) = c :: expandVarsGo m f t := by
  rw [expandVarsGo.eq_def]
  split <;> simp_all

theorem expandVarsGo_safe (m : EnvMap) (l : Str) (h : ∀ c ∈ l, c ≠ '$' ∧ c ≠ '\\') :
    ∀ f, expandVarsGo m f l = l := by
  induction l with
  | nil => intro f; cases f <;> rfl
  | cons c t ih =>
    intro f
    cases f with
    | zero => rfl
    | succ f' =>
      rw [expandVarsGo_cons_other m f' c t (h c (List.mem_cons_self _ _)).2
        (h c (List.mem_cons_self _ _)).1]
      rw [ih (fun x hx => h x (List.mem_cons_of_mem _ hx)) f']

theorem expandVariables_safe (l : Str) (m : EnvMap) (h : ∀ c ∈ l, c ≠ '$' ∧ c ≠ '\\') :
    expandVariables l m = l :=
  expandVarsGo_safe m l h l.length

/-- The greedy optionals on `name ++ rest` when `name` is a nonempty `[A-Z0-9_]+` run
and `rest` does not continue the run or close a brace. -/
theorem varMatch_name (name rest : Str) (hname : name ≠ [])
    (hup : ∀ c ∈ name, isUpperVarChar c = true)
    (hrest : ∀ x, rest.head? = some x → isUpperVarChar x = false ∧ x ≠ '\x7d') :
    varMatch (name ++ rest) = (name, name, rest) := by
  obtain ⟨n0, nt, rfl⟩ := List.exists_cons_of_ne_nil hname
  have h0 := upperVar_facts (hup n0 (List.mem_cons_self _ _))
  have htw : ((n0 :: nt) ++ rest).takeWhile isUpperVarChar = n0 :: nt :=
    takeWhile_append_eq _ _ _ hup (fun x hx => (hrest x hx).1)
  have hdw : ((n0 :: nt) ++ rest).dropWhile isUpperVarChar = rest :=
    dropWhile_append_eq _ _ _ hup (fun x hx => (hrest x hx).1)
  simp only [varMatch]
  rw [if_neg (by simp [h0.1]), if_neg (by simp [h0.2.1]), htw, hdw]
  have hcr : ¬(rest.head? = some '\x7d') := by
    intro hx
    exact (hrest _ hx).2 rfl
  rw [if_neg hcr]
  simp

/-- Same with the `'('` of group 3 present before the name. -/
theorem varMatch_paren_name (name rest : Str) (hname : name ≠ [])
    (hup : ∀ c ∈ name, isUpperVarChar c = true)
    (hrest : ∀ x, rest.head? = some x → isUpperVarChar x = false ∧ x ≠ '\x7d') :
    varMatch ('(' :: (name ++ rest)) = ('(' :: name, name, rest) := by
  obtain ⟨n0, nt, rfl⟩ := List.exists_cons_of_ne_nil hname
  have h0 := upperVar_facts (hup n0 (List.mem_cons_self _ _))
  have htw : ((n0 :: nt) ++ rest).takeWhile isUpperVarChar = n0 :: nt :=
    takeWhile_append_eq _ _ _ hup (fun x hx => (hrest x hx).1)
  have hdw : ((n0 :: nt) ++ rest).dropWhile isUpperVarChar = rest :=
    dropWhile_append_eq _ _ _ hup (fun x hx => (hrest x hx).1)
  simp only [varMatch]
  rw [if_pos (by simp)]
  simp only [List.tail_cons]
  rw [if_neg (by simp [h0.2.1]), htw, hdw]
  have hcr : ¬(rest.head? = some '\x7d') := by
    intro hx
    exact (hrest _ hx).2 rfl
  rw [if_neg hcr]
  simp

theorem expandVarsGo_dollar (m : EnvMap) (f : Nat) (name rest : Str) (hname : name ≠ [])
    (hup : ∀ c ∈ name, isUpperVarChar c = true)
    (hrest : ∀ x, rest.head? = some x → isUpperVarChar x = false ∧ x ≠ '\x7d') :
    expandVarsGo m (f + 1) ('$' :: (name ++ rest))
      = lookupD m name ++ expandVarsGo m f rest := by
  have hvm := varMatch_name name rest hname hup hrest
  have hne : name.isEmpty = false := by simp [List.isEmpty_iff, hname]
  rw [expandVarsGo.eq_def]
  split <;> try simp_all
  all_goals
    rename_i hnc hfeq heqq
    exact absurd heqq.1.symm hnc

theorem expandVarsGo_dollar_paren (m : EnvMap) (f : Nat) (name rest : Str)
    (hname : name ≠ []) (hup : ∀ c ∈ name, isUpperVarChar c = true)
    (hrest : ∀ x, rest.head? = some x → isUpperVarChar x = false ∧ x ≠ '\x7d') :
    expandVarsGo m (f + 1) ('$' :: '(' :: (name ++ rest))
      = lookupD m name ++ expandVarsGo m f rest := by
  have hvm := varMatch_paren_name name rest hname hup hrest
  have hne : name.isEmpty = false := by simp [List.isEmpty_iff, hname]
  rw [expandVarsGo.eq_def]
  split <;> try simp_all
  all_goals
    rename_i hnc hfeq heqq
    exact absurd heqq.1.symm hnc

/-! ## Helper lemmas: the statement loop -/

theorem parseLoopGo_end (fuel f : Nat) (hf : fuel = f + 1) (out cm : EnvMap) :
    parseLoopGo fuel [] out cm = (out, cm, none) := by
  subst hf; rfl

theorem parseLoopGo_newline (fuel : Nat) (x : Str) (out cm : EnvMap) :
    parseLoopGo fuel ('\n' :: x) out cm = parseLoopGo fuel x out cm := by
  cases fuel with
  | zero => rfl
  | succ f => rfl

theorem parse_step_unquoted (fuel f : Nat) (hf : fuel = f + 1) (out cm : EnvMap)
    (k r tail : Str) (hk : k ≠ []) (hk2 : ∀ c ∈ k, validKeyCharB c = true)
    (hr : ∀ c ∈ r, isLineEnd c = false ∧ c ≠ '#')
    (hrh : ∀ x, r.head? = some x → goIsSpace x = false ∧ x ≠ '"' ∧ x ≠ '\'')
    (htail : tail = [] ∨ tail.head? = some '\n') :
    parseLoopGo fuel (k ++ '=' :: (r ++ tail)) out cm
      = parseLoopGo f tail (updA out k (expandVariables (trimGoB r) out)) cm := by
  subst hf
  obtain ⟨kc, kt, rfl⟩ := List.exists_cons_of_ne_nil hk
  have hkc := hk2 kc (List.mem_cons_self _ _)
  have hcut : trimLeftB goIsSpace (r ++ tail) = r ++ tail := by
    cases r with
    | nil =>
      rcases htail with rfl | hh
      · rfl
      · cases tail with
        | nil => cases hh
        | cons x xs =>
          simp only [List.head?_cons, Option.some.injEq] at hh
          subst hh
          exact trimLeftB_cons_of_not _ _ _ (by decide)
    | cons c t =>
      rw [List.cons_append]
      exact trimLeftB_cons_of_not _ _ _ (hrh c rfl).1
  have hstart : getStatementStart ((kc :: kt) ++ '=' :: (r ++ tail))
      = some ((kc :: kt) ++ '=' :: (r ++ tail)) := by
    rw [List.cons_append]
    exact getStatementStart_cons kc _ (validKey_not_unicodeSpace hkc) (validKey_ne_hash hkc)
  have hloc := locateKeyName_valid (kc :: kt) (r ++ tail) hk hk2
  rw [List.cons_append] at hloc
  have hhead : ∀ x, (r ++ tail).head? = some x → x ≠ '"' ∧ x ≠ '\'' := by
    intro x hx
    cases r with
    | nil =>
      rcases htail with rfl | hh
      · cases hx
      · rw [List.nil_append] at hx
        rw [hx] at hh
        obtain rfl := Option.some_inj.mp hh
        decide
    | cons c t =>
      rw [List.cons_append, List.head?_cons] at hx
      obtain rfl := Option.some_inj.mp hx
      exact ⟨(hrh c rfl).2.1, (hrh c rfl).2.2⟩
  have htl : ∀ x, tail.head? = some x → isLineEnd x = true := by
    intro x hx
    rcases htail with rfl | hh
    · cases hx
    · rw [hx] at hh
      obtain rfl := Option.some_inj.mp hh
      decide
  have hextract : extractVarValue (r ++ tail) out
      = .ok (expandVariables (trimGoB r) out, [], tail) := by
    rw [extractVarValue_unquoted (r ++ tail) out hhead]
    rw [extractUnquotedValue_plain r tail out hr htl]
  rw [parseLoopGo, hstart]
  simp [hloc, hcut, hextract]

theorem parse_step_quoted (fuel f : Nat) (hf : fuel = f + 1) (out cm : EnvMap)
    (k inner tail : Str) (q : Char) (hq : q = '"' ∨ q = '\'') (hk : k ≠ [])
    (hk2 : ∀ c ∈ k, validKeyCharB c = true) (hin : ∀ c ∈ inner, c ≠ q)
    (hlast : inner.getLastD q ≠ '\\') :
    ∃ cm2, parseLoopGo fuel (k ++ '=' :: (q :: (inner ++ q :: tail))) out cm
      = parseLoopGo f tail
          (updA out k (if q = '"' then expandVariables (expandEscapes inner) out else inner))
          cm2 := by
  subst hf
  obtain ⟨kc, kt, rfl⟩ := List.exists_cons_of_ne_nil hk
  have hkc := hk2 kc (List.mem_cons_self _ _)
  have hqs : goIsSpace q = false := by rcases hq with rfl | rfl <;> decide
  have hstart : getStatementStart ((kc :: kt) ++ '=' :: (q :: (inner ++ q :: tail)))
      = some ((kc :: kt) ++ '=' :: (q :: (inner ++ q :: tail))) := by
    rw [List.cons_append]
    exact getStatementStart_cons kc _ (validKey_not_unicodeSpace hkc) (validKey_ne_hash hkc)
  have hloc := locateKeyName_valid (kc :: kt) (q :: (inner ++ q :: tail)) hk hk2
  rw [List.cons_append] at hloc
  have hcut : trimLeftB goIsSpace (q :: (inner ++ q :: tail)) = q :: (inner ++ q :: tail) :=
    trimLeftB_cons_of_not _ _ _ hqs
  obtain ⟨cmt, hext⟩ := extractQuotedValue_found q inner tail out hin hlast
  have hdisp : extractVarValue (q :: (inner ++ q :: tail)) out
      = extractQuotedValue (q :: (inner ++ q :: tail)) out q :=
    extractVarValue_quoted q _ out (by tauto)
  refine ⟨if cmt.length > 0 then updA cm (kc :: kt) cmt else cm, ?_⟩
  rw [parseLoopGo, hstart]
  simp [hloc, hcut, hdisp, hext]

/-! ## Helper lemmas: plain values through the pipeline -/

theorem mem_of_head?_eq {l : Str} {x : Char} (h : l.head? = some x) : x ∈ l := by
  cases l with
  | nil => cases h
  | cons c t => exact (Option.some_inj.mp h) ▸ List.mem_cons_self _ _

theorem expandVarsGo_nil (m : EnvMap) : ∀ f, expandVarsGo m f [] = [] := by
  intro f; cases f <;> rfl

theorem trimGoB_plain (v : Str) (hv : ∀ c ∈ v, plainChar c = true) : trimGoB v = v :=
  trimB_eq_self _ _ (fun x hx => (plain_facts (hv x (mem_of_head?_eq hx))).1)
    (fun x hx => (plain_facts (hv x (mem_of_getLast?_eq hx))).1)

theorem expandVariables_plain (v : Str) (m : EnvMap) (hv : ∀ c ∈ v, plainChar c = true) :
    expandVariables v m = v :=
  expandVariables_safe v m (fun c hc =>
    ⟨(plain_facts (hv c hc)).2.2.2.1, (plain_facts (hv c hc)).2.2.2.2.1⟩)

theorem plain_value_lines (v : Str) (hv : ∀ c ∈ v, plainChar c = true) :
    ∀ c ∈ v, isLineEnd c = false ∧ c ≠ '#' :=
  fun c hc => ⟨(plain_facts (hv c hc)).2.1, (plain_facts (hv c hc)).2.2.1⟩

theorem plain_value_head (v : Str) (hv : ∀ c ∈ v, plainChar c = true) :
    ∀ x, v.head? = some x → goIsSpace x = false ∧ x ≠ '"' ∧ x ≠ '\'' := by
  intro x hx
  have pf := plain_facts (hv x (mem_of_head?_eq hx))
  exact ⟨pf.1, pf.2.2.2.2.2.1, pf.2.2.2.2.2.2.1⟩

theorem expandVariables_single_dollar (m : EnvMap) (name : Str) (hname : name ≠ [])
    (hup : ∀ c ∈ name, isUpperVarChar c = true) :
    expandVariables ('$' :: name) m = lookupD m name := by
  show expandVarsGo m ('$' :: name).length ('$' :: name) = _
  rw [List.length_cons]
  have hd := expandVarsGo_dollar m name.length name [] hname hup (fun x hx => by cases hx)
  rw [List.append_nil] at hd
  rw [hd, expandVarsGo_nil, List.append_nil]

/-! ## Helper lemmas: the shape of stored keys -/

/-- What is actually true of every key the scanner can store: nonempty, no
trailing ASCII white space, and every byte either in the key charset or a
white-space byte that the loop skipped in place.  The trailing clause is only
the ASCII part of the space class: the UTF-8-aware right trim leaves a bare
trailing `85`/`A0` byte in place (it decodes to `RuneError`, not to a space
rune), so a stored key can end in one of those two white-space-class bytes. -/
def keyShape (k : Str) : Prop :=
  k ≠ [] ∧ (∀ c ∈ k, validKeyCharB c = true ∨ goIsSpace c = true) ∧
    (∀ x, k.getLast? = some x → asciiSpaceB x = false)

theorem scanKey_found_chars (s : Str) :
    ∀ key rest, scanKey s = .found key rest →
      ∀ c ∈ key, validKeyCharB c = true ∨ goIsSpace c = true := by
  induction s with
  | nil => intro key rest h; cases h
  | cons c t ih =>
    intro key rest h
    unfold scanKey at h
    by_cases h1 : goIsSpace c
    · rw [if_pos h1] at h
      cases hsk : scanKey t with
      | found k' r' =>
        rw [hsk] at h
        simp only [scanKeyCons] at h
        obtain ⟨rfl, rfl⟩ := KeyScan.found.inj h
        intro x hx
        rcases List.mem_cons.mp hx with rfl | hx'
        · exact Or.inr h1
        · exact ih k' r' hsk x hx'
      | noDelim => rw [hsk] at h; cases h
      | bad cc => rw [hsk] at h; cases h
    · rw [if_neg h1] at h
      by_cases h2 : c = '=' ∨ c = ':'
      · rw [if_pos h2] at h
        cases h
        intro x hx
        cases hx
      · rw [if_neg h2] at h
        by_cases h3 : c = '_'
        · rw [if_pos h3] at h
          cases hsk : scanKey t with
          | found k' r' =>
            rw [hsk] at h
            simp only [scanKeyCons] at h
            obtain ⟨rfl, rfl⟩ := KeyScan.found.inj h
            intro x hx
            rcases List.mem_cons.mp hx with rfl | hx'
            · exact Or.inl (by rw [h3]; decide)
            · exact ih k' r' hsk x hx'
          | noDelim => rw [hsk] at h; cases h
          | bad cc => rw [hsk] at h; cases h
        · rw [if_neg h3] at h
          by_cases h4 : (goIsLetter c || goIsNumber c || c = '.') = true
          · rw [if_pos h4] at h
            cases hsk : scanKey t with
            | found k' r' =>
              rw [hsk] at h
              simp only [scanKeyCons] at h
              obtain ⟨rfl, rfl⟩ := KeyScan.found.inj h
              intro x hx
              rcases List.mem_cons.mp hx with rfl | hx'
              · exact Or.inl (by
                  simp only [validKeyCharB, Bool.or_eq_true, beq_iff_eq]
                  simp only [Bool.or_eq_true, decide_eq_true_eq] at h4
                  tauto)
              · exact ih k' r' hsk x hx'
            | noDelim => rw [hsk] at h; cases h
            | bad cc => rw [hsk] at h; cases h
          · rw [if_neg h4] at h
            cases h

theorem locateKeyName_ok_shape (s key rest : Str)
    (h : locateKeyName s = .ok (key, rest)) (hne : key ≠ []) : keyShape key := by
  unfold locateKeyName locateKeyNameAt at h
  cases hsk : scanKey (exportAdjust (trimLeftB goIsSpace s)) with
  | bad c => rw [hsk] at h; cases h
  | noDelim =>
    rw [hsk] at h
    by_cases hz : (exportAdjust (trimLeftB goIsSpace s)).length = 0
    · rw [if_pos hz] at h; cases h
    · rw [if_neg hz] at h
      cases h
      exact absurd rfl hne
  | found key0 rest0 =>
    rw [hsk] at h
    cases h
    refine ⟨hne, ?_, getLast?_trimRightUni _⟩
    intro c hc
    exact scanKey_found_chars _ key0 rest0 hsk c (mem_trimRightUni hc)

theorem updA_mem {α : Type} (m : List (Str × α)) (k : Str) (v : α) :
    ∀ p ∈ updA m k v, p ∈ m ∨ p = (k, v) := by
  induction m with
  | nil => intro p hp; simp [updA] at hp; exact Or.inr hp
  | cons q t ih =>
    intro p hp
    unfold updA at hp
    by_cases hk : q.1 = k
    · rw [if_pos hk] at hp
      rcases List.mem_cons.mp hp with rfl | hp'
      · exact Or.inr rfl
      · exact Or.inl (List.mem_cons_of_mem _ hp')
    · rw [if_neg hk] at hp
      rcases List.mem_cons.mp hp with rfl | hp'
      · exact Or.inl (List.mem_cons_self _ _)
      · rcases ih p hp' with h | h
        · exact Or.inl (List.mem_cons_of_mem _ h)
        · exact Or.inr h

theorem parseLoopGo_keys (fuel : Nat) :
    ∀ cutset out cm, (∀ p ∈ out, keyShape p.1) →
      ∀ p ∈ (parseLoopGo fuel cutset out cm).1, keyShape p.1 := by
  induction fuel with
  | zero => intro cutset out cm hout; exact hout
  | succ f ih =>
    intro cutset out cm hout p hp
    rw [parseLoopGo] at hp
    split at hp
    · exact hout p hp
    · split at hp
      · exact hout p hp
      · split at hp
        · exact hout p hp
        · split at hp
          · exact hout p hp
          · rename_i sc1 kl hloc hkey sc2 vcr hext
            refine ih _ _ _ ?_ p hp
            intro q hq
            rcases updA_mem out kl.1 vcr.1 q hq with h | h
            · exact hout q h
            · rw [h]
              exact locateKeyName_ok_shape _ kl.1 kl.2 (by rw [hloc]) hkey

theorem parseBytes_eq (src : Str) (out : EnvMap) :
    parseBytes src out
      = ((parseLoopGo ((normalizeCRLF src).length + 1) (normalizeCRLF src) out []).1,
         (parseLoopGo ((normalizeCRLF src).length + 1) (normalizeCRLF src) out []).2.2) :=
  rfl

theorem plain_ne_cr {c : Char} (h : plainChar c = true) : c ≠ '\r' :=
  (plain_facts h).2.2.2.2.2.2.2.1

theorem take_findEndOfLine (s : Str) :
    s.take (findEndOfLine s) = s.takeWhile (fun c => !isLineEnd c) := by
  induction s with
  | nil => rfl
  | cons c t ih =>
    by_cases hc : isLineEnd c = true
    · simp [findEndOfLine, List.takeWhile, hc]
    · simp only [Bool.not_eq_true] at hc
      simp [findEndOfLine, List.takeWhile, hc, List.take_succ_cons, ih]

theorem parse_step_unterminated (fuel f : Nat) (hf : fuel = f + 1) (out cm : EnvMap)
    (k inner : Str) (q : Char) (hq : q = '"' ∨ q = '\'') (hk : k ≠ [])
    (hk2 : ∀ c ∈ k, validKeyCharB c = true) (hin : ∀ c ∈ inner, c ≠ q) :
    parseLoopGo fuel (k ++ '=' :: (q :: inner)) out cm
      = (out, cm, some (.unterminatedQuote ((q :: inner).take (findEndOfLine (q :: inner))))) := by
  subst hf
  obtain ⟨kc, kt, rfl⟩ := List.exists_cons_of_ne_nil hk
  have hkc := hk2 kc (List.mem_cons_self _ _)
  have hqs : goIsSpace q = false := by rcases hq with rfl | rfl <;> decide
  have hstart : getStatementStart ((kc :: kt) ++ '=' :: (q :: inner))
      = some ((kc :: kt) ++ '=' :: (q :: inner)) := by
    rw [List.cons_append]
    exact getStatementStart_cons kc _ (validKey_not_unicodeSpace hkc) (validKey_ne_hash hkc)
  have hloc := locateKeyName_valid (kc :: kt) (q :: inner) hk hk2
  rw [List.cons_append] at hloc
  have hcut : trimLeftB goIsSpace (q :: inner) = q :: inner :=
    trimLeftB_cons_of_not _ _ _ hqs
  have hdisp : extractVarValue (q :: inner) out = extractQuotedValue (q :: inner) out q :=
    extractVarValue_quoted q _ out (by tauto)
  have hqerr : extractQuotedValue (q :: inner) out q
      = .error (.unterminatedQuote ((q :: inner).take (findEndOfLine (q :: inner)))) := by
    simp only [extractQuotedValue, splitAtClosingQuote_none q inner hin q]
  rw [parseLoopGo, hstart]
  simp [hloc, hcut, hdisp, hqerr]

/-! ## Claims -/

/-- C1, counterexample: the spec says a `$` followed directly by `(` is emitted as a
literal with no lookup, so `$(FOO)` should stay `$(FOO)`.  The code's test
`submatch[2] == "("` compares the `(\$)` group (always `"$"`), never the `(\()`
group, so the literal branch is dead: with `FOO=bar` defined earlier, the match
`$(FOO` of value `$(FOO)` is replaced by the lookup `bar`, yielding `bar)`. -/
theorem c1_paren_counterexample :
    parseBytes "FOO=bar\nBAR=$(FOO)".data []
      = ([("FOO".data, "bar".data), ("BAR".data, "bar)".data)], none)
    ∧ lookupA (parseBytes "FOO=bar\nBAR=$(FOO)".data []).1 "BAR".data
        ≠ some "$(FOO)".data := by
  decide

/-- C1, amended: a `$(` directly followed by an `[A-Z0-9_]+` name is *not* passed
through: the matched `$(NAME` is replaced by the resolved value of `NAME` (the
empty string when undefined), leaving the unmatched `)` behind; a `$(` not
followed by such a name is left unchanged (the match's name group is empty). -/
theorem c1_amended (m : EnvMap) (name : Str) (hname : name ≠ [])
    (hup : ∀ c ∈ name, isUpperVarChar c = true) :
    expandVariables ('$' :: '(' :: (name ++ [')'])) m = lookupD m name ++ [')']
    ∧ expandVariables ['$', '('] m = ['$', '('] := by
  constructor
  · show expandVarsGo m ('$' :: '(' :: (name ++ [')'])).length _ = _
    have hlen : ('$' :: '(' :: (name ++ [')'])).length = (name.length + 2) + 1 := by
      simp only [List.length_cons, List.length_append, List.length_nil]
    rw [hlen]
    rw [expandVarsGo_dollar_paren m (name.length + 2) name [')'] hname hup
      (fun x hx => by
        cases (Option.some_inj.mp hx : ')' = x)
        exact ⟨by decide, by decide⟩)]
    congr 1
  · rfl

/-- C1, amended, witness at `name = FOO` with `FOO ↦ bar`: `$(FOO)` becomes `bar)`. -/
theorem c1_amended_witness :
    expandVariables ('$' :: '(' :: ("FOO".data ++ [')'])) [("FOO".data, "bar".data)]
      = lookupD [("FOO".data, "bar".data)] "FOO".data ++ [')']
    ∧ expandVariables ['$', '('] [("FOO".data, "bar".data)] = ['$', '('] :=
  c1_amended [("FOO".data, "bar".data)] "FOO".data (by decide) (by decide)

/-- C2, counterexample: the spec's key charset is `[A-Za-z0-9_.]+`, and the claim
says any other byte before the delimiter raises the invalid-key error.  But the key
loop skips white space in place, so `A B=1` parses successfully and stores the key
`A B`, which contains a space and thus falls outside the charset. -/
theorem c2_key_charset_counterexample :
    parseBytes "A B=1".data [] = ([("A B".data, "1".data)], none)
    ∧ specKeyCharset "A B".data = false := by
  decide

/-- C2, amended: every key stored by the parser is nonempty, does not end in an
ASCII white-space byte, and each of its bytes is either in the key charset
(letters, digits, `_`, `.`) or a white-space byte skipped in place by the loop;
any other byte still aborts the scan with the invalid-key error.  The trailing
clause cannot be strengthened to the whole white-space class: the right trim
decodes UTF-8, so a bare trailing `85`/`A0` byte decodes to `RuneError`, is not
trimmed, and stays as the key's last byte (`A\xA0=1` stores the key `A\xA0`). -/
theorem c2_amended (src : Str) : ∀ p ∈ (parseBytes src []).1, keyShape p.1 := by
  intro p hp
  exact parseLoopGo_keys _ _ _ _ (fun q hq => absurd hq (List.not_mem_nil q)) p hp

/-- C2, amended, witness: the key stored from `A B=1` has the proven shape. -/
theorem c2_amended_witness : keyShape ("A B".data, "1".data).1 :=
  c2_amended "A B=1".data ("A B".data, "1".data) (by decide)

/-- C3, counterexample: after the failed parse of `A=1\nB&=2` (the second statement
has the invalid key byte `&`), the output mapping still contains the binding
`A ↦ 1` from the statement before the offending one — the claim says it must not. -/
theorem c3_partial_map_counterexample :
    lookupA (parseBytes "A=1\nB&=2".data []).1 "A".data = some "1".data := by
  decide

/-- C3, amended: the invalid-key error propagates immediately — the offending and
following statements contribute nothing — but the output map is mutated in place
statement by statement, so the bindings of the preceding statements remain in it
when the failed call returns. -/
theorem c3_amended :
    parseBytes "A=1\nB&=2".data []
      = ([("A".data, "1".data)], some (.invalidKey '&' "B&=2".data)) := by
  decide

/-- C4, counterexample: the claim says a key-less line (no `=`/`:` on the line)
ends the parse successfully even when followed by a newline and further lines; in
fact the key scan runs over the rest of the buffer, reaches the `'\n'` (not a
valid key byte, and not skipped, since the scanner's space class excludes it) and
raises the invalid-key error. -/
theorem c4_keyless_counterexample :
    parseBytes "A\nB=1".data [] = ([], some (.invalidKey '\n' "A\nB=1".data)) := by
  decide

/-- C4, amended: a key-less line ends the parse successfully only when it is the
final text of the buffer with no trailing newline (the scan exhausts the buffer
without a delimiter, so the empty key stops the loop); a key-less line followed by
a newline raises the invalid-key error at the `'\n'` itself. -/
theorem c4_amended :
    parseBytes "B=1\nA".data [] = ([("B".data, "1".data)], none)
    ∧ parseBytes "B=1\nA\nC=2".data []
        = ([("B".data, "1".data)], some (.invalidKey '\n' "A\nC=2".data)) := by
  decide

/-- C6: in a double-quoted value, the `\n`/`\r` pass runs before the generic
backslash-stripping pass: `B="a\nb"` stores an actual newline between `a` and `b`,
while `C="a\\nb"` stores literal backslash-then-`n` — the doubled backslash is
consumed as one `\\.` match by the first pass (kept verbatim) and then stripped to
one backslash by the second, protecting the `n`. -/
theorem c6_escape_order :
    parseBytes "B=\"a\\nb\"".data [] = ([("B".data, "a\nb".data)], none)
    ∧ parseBytes "C=\"a\\\\nb\"".data [] = ([("C".data, "a\\nb".data)], none)
    ∧ expandEscapes "a\\nb".data = "a\nb".data
    ∧ expandEscapes "a\\\\nb".data = "a\\nb".data := by
  decide

/-- C5: substitution is strictly left-to-right over the statements: `$B` resolves
to the value `B` was bound to by an earlier statement; when `B` is only defined
later, or is the key currently being defined, the reference resolves to the empty
string, never to the later value. -/
theorem c5_left_to_right (v : Str) (hv : ∀ c ∈ v, plainChar c = true) :
    parseBytes ("B=".data ++ v ++ "\nA=$B\n".data) []
      = ([("B".data, v), ("A".data, v)], none)
    ∧ parseBytes ("A=$B\nB=".data ++ v ++ "\n".data) []
      = ([("A".data, []), ("B".data, v)], none)
    ∧ parseBytes "B=$B\n".data [] = ([("B".data, [])], none) := by
  have hvalue : ∀ out : EnvMap, expandVariables (trimGoB v) out = v := fun out => by
    rw [trimGoB_plain v hv, expandVariables_plain v out hv]
  have hdollar : ∀ out : EnvMap,
      expandVariables (trimGoB "$B".data) out = lookupD out "B".data := fun out => by
    rw [show trimGoB "$B".data = "$B".data from by decide]
    exact expandVariables_single_dollar out "B".data (by decide) (by decide)
  refine ⟨?_, ?_, by decide⟩
  · have hshape : ("B=".data ++ v ++ "\nA=$B\n".data : Str)
        = "B".data ++ '=' :: (v ++ ('\n' :: ("A".data ++ '=' :: ("$B".data ++ ('\n' :: []))))) := by
      simp only [List.append_assoc]
      rfl
    have hnr : ∀ c ∈ ("B".data ++ '=' ::
        (v ++ ('\n' :: ("A".data ++ '=' :: ("$B".data ++ ('\n' :: []))))) : Str), c ≠ '\r' := by
      intro c hc
      rcases List.mem_append.mp hc with h | h
      · exact (by decide : ∀ c ∈ ("B".data : Str), c ≠ '\r') c h
      rcases List.mem_cons.mp h with rfl | h
      · decide
      rcases List.mem_append.mp h with h | h
      · exact plain_ne_cr (hv c h)
      rcases List.mem_cons.mp h with rfl | h
      · decide
      rcases List.mem_append.mp h with h | h
      · exact (by decide : ∀ c ∈ ("A".data : Str), c ≠ '\r') c h
      rcases List.mem_cons.mp h with rfl | h
      · decide
      rcases List.mem_append.mp h with h | h
      · exact (by decide : ∀ c ∈ ("$B".data : Str), c ≠ '\r') c h
      rcases List.mem_cons.mp h with rfl | h
      · decide
      cases h
    have hlen1 : ("B".data ++ '=' ::
        (v ++ ('\n' :: ("A".data ++ '=' :: ("$B".data ++ ('\n' :: [])))) ) : Str).length
        = (v.length + 7) + 1 := by
      simp only [List.length_append, List.length_cons, List.length_nil,
        show ("B".data : Str).length = 1 from by decide,
        show ("A".data : Str).length = 1 from by decide,
        show ("$B".data : Str).length = 2 from by decide]
      omega
    rw [hshape, parseBytes_eq, normalizeCRLF_id _ hnr]
    rw [parse_step_unquoted _ _ rfl [] [] "B".data v
      ('\n' :: ("A".data ++ '=' :: ("$B".data ++ ('\n' :: [])))) (by decide) (by decide)
      (plain_value_lines v hv) (plain_value_head v hv) (Or.inr rfl)]
    rw [hvalue, show updA ([] : EnvMap) "B".data v = [("B".data, v)] from rfl]
    rw [parseLoopGo_newline]
    rw [parse_step_unquoted _ _ hlen1 [("B".data, v)] [] "A".data "$B".data
      ('\n' :: []) (by decide) (by decide) (by decide) (by decide) (Or.inr rfl)]
    rw [hdollar, show lookupD [("B".data, v)] "B".data = v from rfl]
    rw [parseLoopGo_newline]
    rw [parseLoopGo_end (v.length + 7) (v.length + 6) rfl]
    rfl
  · have hshape : ("A=$B\nB=".data ++ v ++ "\n".data : Str)
        = "A".data ++ '=' :: ("$B".data ++ ('\n' :: ("B".data ++ '=' :: (v ++ ('\n' :: []))))) := by
      simp only [List.append_assoc]
      rfl
    have hnr : ∀ c ∈ ("A".data ++ '=' ::
        ("$B".data ++ ('\n' :: ("B".data ++ '=' :: (v ++ ('\n' :: []))))) : Str), c ≠ '\r' := by
      intro c hc
      rcases List.mem_append.mp hc with h | h
      · exact (by decide : ∀ c ∈ ("A".data : Str), c ≠ '\r') c h
      rcases List.mem_cons.mp h with rfl | h
      · decide
      rcases List.mem_append.mp h with h | h
      · exact (by decide : ∀ c ∈ ("$B".data : Str), c ≠ '\r') c h
      rcases List.mem_cons.mp h with rfl | h
      · decide
      rcases List.mem_append.mp h with h | h
      · exact (by decide : ∀ c ∈ ("B".data : Str), c ≠ '\r') c h
      rcases List.mem_cons.mp h with rfl | h
      · decide
      rcases List.mem_append.mp h with h | h
      · exact plain_ne_cr (hv c h)
      rcases List.mem_cons.mp h with rfl | h
      · decide
      cases h
    have hlen2 : ("A".data ++ '=' ::
        ("$B".data ++ ('\n' :: ("B".data ++ '=' :: (v ++ ('\n' :: []))))) : Str).length
        = (v.length + 7) + 1 := by
      simp only [List.length_append, List.length_cons, List.length_nil,
        show ("B".data : Str).length = 1 from by decide,
        show ("A".data : Str).length = 1 from by decide,
        show ("$B".data : Str).length = 2 from by decide]
      omega
    rw [hshape, parseBytes_eq, normalizeCRLF_id _ hnr]
    rw [parse_step_unquoted _ _ rfl [] [] "A".data "$B".data
      ('\n' :: ("B".data ++ '=' :: (v ++ ('\n' :: [])))) (by decide) (by decide)
      (by decide) (by decide) (Or.inr rfl)]
    rw [hdollar, show lookupD [] "B".data = [] from rfl]
    rw [show updA ([] : EnvMap) "A".data [] = [("A".data, [])] from rfl]
    rw [parseLoopGo_newline]
    rw [parse_step_unquoted _ _ hlen2 [("A".data, [])] [] "B".data v
      ('\n' :: []) (by decide)
      (by decide) (plain_value_lines v hv) (plain_value_head v hv) (Or.inr rfl)]
    rw [hvalue]
    rw [parseLoopGo_newline]
    rw [parseLoopGo_end (v.length + 7) (v.length + 6) rfl]
    rfl

/-- A single statement `A='inner'` filling the whole buffer: the stored value is
exactly `inner`, with no escape decoding and no substitution (shared by the
single-quote and closing-quote-scan claims). -/
theorem parse_single_quoted_stmt (inner : Str)
    (hinner : ∀ c ∈ inner, c ≠ '\'' ∧ c ≠ '\r') (hlast : inner.getLastD '\'' ≠ '\\') :
    ∃ cm2, parseBytesWithComments ("A=".data ++ '\'' :: (inner ++ ['\''])) [] []
      = ([("A".data, inner)], cm2, none) := by
  have hshape : ("A=".data ++ '\'' :: (inner ++ ['\'']) : Str)
      = "A".data ++ '=' :: ('\'' :: (inner ++ '\'' :: [])) := rfl
  have hnr : ∀ c ∈ ("A".data ++ '=' :: ('\'' :: (inner ++ '\'' :: [])) : Str), c ≠ '\r' := by
    intro c hc
    rcases List.mem_append.mp hc with h | h
    · exact (by decide : ∀ c ∈ ("A".data : Str), c ≠ '\r') c h
    rcases List.mem_cons.mp h with rfl | h
    · decide
    rcases List.mem_cons.mp h with rfl | h
    · decide
    rcases List.mem_append.mp h with h | h
    · exact (hinner c h).2
    rcases List.mem_cons.mp h with rfl | h
    · decide
    cases h
  rw [hshape]
  unfold parseBytesWithComments
  rw [normalizeCRLF_id _ hnr]
  set L := ("A".data ++ '=' :: ('\'' :: (inner ++ '\'' :: [])) : Str).length with hL
  obtain ⟨cm2, hstep⟩ := parse_step_quoted (L + 1) L rfl [] [] "A".data inner [] '\''
    (Or.inr rfl) (by decide) (by decide) (fun c hc => (hinner c hc).1) hlast
  rw [hstep, if_neg (by decide : ¬('\'' = '"'))]
  have hL1 : L = (inner.length + 3) + 1 := by
    rw [hL]
    simp only [List.length_append, List.length_cons, List.length_nil,
      show ("A".data : Str).length = 1 from by decide]
    omega
  rw [parseLoopGo_end L (inner.length + 3) hL1]
  exact ⟨cm2, rfl⟩

/-- C7: a single-quoted value undergoes neither escape decoding nor variable
substitution: the stored value is exactly the text between the quotes, whether or
not variables referenced inside were defined by an earlier statement. -/
theorem c7_single_quote_literal (inner v : Str)
    (hinner : ∀ c ∈ inner, c ≠ '\'' ∧ c ≠ '\r') (hlast : inner.getLastD '\'' ≠ '\\')
    (hv : ∀ c ∈ v, plainChar c = true) :
    parseBytes ("A=".data ++ '\'' :: (inner ++ ['\''])) [] = ([("A".data, inner)], none)
    ∧ (parseBytes ("B=".data ++ v ++ "\nA=".data ++ '\'' :: (inner ++ ['\''])) []).1
        = [("B".data, v), ("A".data, inner)] := by
  constructor
  · obtain ⟨cm2, h⟩ := parse_single_quoted_stmt inner hinner hlast
    show ((parseBytesWithComments ("A=".data ++ '\'' :: (inner ++ ['\''])) [] []).1,
      (parseBytesWithComments ("A=".data ++ '\'' :: (inner ++ ['\''])) [] []).2.2) = _
    rw [h]
  · have hvalue : expandVariables (trimGoB v) ([] : EnvMap) = v := by
      rw [trimGoB_plain v hv, expandVariables_plain v [] hv]
    have hshape : ("B=".data ++ v ++ "\nA=".data ++ '\'' :: (inner ++ ['\'']) : Str)
        = "B".data ++ '=' ::
            (v ++ ('\n' :: ("A".data ++ '=' :: ('\'' :: (inner ++ '\'' :: []))))) := by
      simp only [List.append_assoc]
      rfl
    have hnr : ∀ c ∈ ("B".data ++ '=' ::
        (v ++ ('\n' :: ("A".data ++ '=' :: ('\'' :: (inner ++ '\'' :: []))))) : Str),
        c ≠ '\r' := by
      intro c hc
      rcases List.mem_append.mp hc with h | h
      · exact (by decide : ∀ c ∈ ("B".data : Str), c ≠ '\r') c h
      rcases List.mem_cons.mp h with rfl | h
      · decide
      rcases List.mem_append.mp h with h | h
      · exact plain_ne_cr (hv c h)
      rcases List.mem_cons.mp h with rfl | h
      · decide
      rcases List.mem_append.mp h with h | h
      · exact (by decide : ∀ c ∈ ("A".data : Str), c ≠ '\r') c h
      rcases List.mem_cons.mp h with rfl | h
      · decide
      rcases List.mem_cons.mp h with rfl | h
      · decide
      rcases List.mem_append.mp h with h | h
      · exact (hinner c h).2
      rcases List.mem_cons.mp h with rfl | h
      · decide
      cases h
    rw [hshape, parseBytes_eq, normalizeCRLF_id _ hnr]
    set L := ("B".data ++ '=' ::
      (v ++ ('\n' :: ("A".data ++ '=' :: ('\'' :: (inner ++ '\'' :: []))))) : Str).length
      with hL
    rw [parse_step_unquoted (L + 1) L rfl [] [] "B".data v
      ('\n' :: ("A".data ++ '=' :: ('\'' :: (inner ++ '\'' :: [])))) (by decide) (by decide)
      (plain_value_lines v hv) (plain_value_head v hv) (Or.inr rfl)]
    rw [hvalue, show updA ([] : EnvMap) "B".data v = [("B".data, v)] from rfl]
    rw [parseLoopGo_newline]
    have hL1 : L = (v.length + inner.length + 6) + 1 := by
      rw [hL]
      simp only [List.length_append, List.length_cons, List.length_nil,
        show ("A".data : Str).length = 1 from by decide,
        show ("B".data : Str).length = 1 from by decide]
      omega
    obtain ⟨cm2, hstep⟩ := parse_step_quoted L (v.length + inner.length + 6) hL1
      [("B".data, v)] [] "A".data inner [] '\'' (Or.inr rfl) (by decide) (by decide)
      (fun c hc => (hinner c hc).1) hlast
    rw [hstep, if_neg (by decide : ¬('\'' = '"'))]
    rw [parseLoopGo_end (v.length + inner.length + 6) (v.length + inner.length + 5) rfl]
    rfl

/-- C7, witness at `inner = a\n $B` (contains a backslash escape and a variable
reference) and `v = x`: the stored value is the raw text `a\n $B`. -/
theorem c7_single_quote_literal_witness :
    parseBytes ("A=".data ++ '\'' :: ("a\\n $B".data ++ ['\''])) []
      = ([("A".data, "a\\n $B".data)], none)
    ∧ (parseBytes ("B=".data ++ "x".data ++ "\nA=".data ++ '\'' :: ("a\\n $B".data ++ ['\''])) []).1
        = [("B".data, "x".data), ("A".data, "a\\n $B".data)] :=
  c7_single_quote_literal "a\\n $B".data "x".data (by decide) (by decide) (by decide)

/-- C10: the scan for a closing quote runs over the whole remaining buffer, not
just the current line: a value whose closing quote appears on a later line is
extracted with its newlines intact, and the unterminated-quote error arises
exactly when no unescaped closing quote exists before end-of-buffer (the error
carries the first line of the dangling value). -/
theorem c10_closing_quote_whole_buffer (inner : Str)
    (hinner : ∀ c ∈ inner, c ≠ '\'' ∧ c ≠ '\r') (hlast : inner.getLastD '\'' ≠ '\\') :
    (parseBytes ("A=".data ++ '\'' :: (inner ++ ['\''])) []).1 = [("A".data, inner)]
    ∧ parseBytes ("A=".data ++ '\'' :: inner) []
        = ([], some (.unterminatedQuote
            ('\'' :: inner.takeWhile (fun c => !isLineEnd c)))) := by
  constructor
  · obtain ⟨cm2, h⟩ := parse_single_quoted_stmt inner hinner hlast
    show (parseBytesWithComments ("A=".data ++ '\'' :: (inner ++ ['\''])) [] []).1 = _
    rw [h]
  · have hshape : ("A=".data ++ '\'' :: inner : Str)
        = "A".data ++ '=' :: ('\'' :: inner) := rfl
    have hnr : ∀ c ∈ ("A".data ++ '=' :: ('\'' :: inner) : Str), c ≠ '\r' := by
      intro c hc
      rcases List.mem_append.mp hc with h | h
      · exact (by decide : ∀ c ∈ ("A".data : Str), c ≠ '\r') c h
      rcases List.mem_cons.mp h with rfl | h
      · decide
      rcases List.mem_cons.mp h with rfl | h
      · decide
      exact (hinner c h).2
    rw [hshape, parseBytes_eq, normalizeCRLF_id _ hnr]
    rw [parse_step_unterminated _ _ rfl [] [] "A".data inner '\'' (Or.inr rfl) (by decide)
      (by decide) (fun c hc => (hinner c hc).1)]
    rw [take_findEndOfLine, List.takeWhile_cons_of_pos (by decide)]

/-- C10, witness at `inner = x\ny`: the closing quote on the second line is found
and the value keeps the newline; without it the parse fails with the
unterminated-quote error carrying only the first line `'x`. -/
theorem c10_closing_quote_whole_buffer_witness :
    (parseBytes ("A=".data ++ '\'' :: ("x\ny".data ++ ['\''])) []).1
      = [("A".data, "x\ny".data)]
    ∧ parseBytes ("A=".data ++ '\'' :: "x\ny".data) []
        = ([], some (.unterminatedQuote
            ('\'' :: "x\ny".data.takeWhile (fun c => !isLineEnd c)))) :=
  c10_closing_quote_whole_buffer "x\ny".data (by decide) (by decide)

/-- C5, witness at `v = later`. -/
theorem c5_left_to_right_witness :
    parseBytes ("B=".data ++ "later".data ++ "\nA=$B\n".data) []
      = ([("B".data, "later".data), ("A".data, "later".data)], none)
    ∧ parseBytes ("A=$B\nB=".data ++ "later".data ++ "\n".data) []
      = ([("A".data, []), ("B".data, "later".data)], none)
    ∧ parseBytes "B=$B\n".data [] = ([("B".data, [])], none) :=
  c5_left_to_right "later".data (by decide)

end Godotenv
